import Mathlib

/-!
Verification of the Relish binary serialization codec (Go repository
github.com/dadrian/relish) against its natural-language specification.

The Go sources are shallowly embedded: byte streams are lists of natural
numbers (each byte in 0..255), `io.Reader` style functions become pure
functions from an input list to `Except Err (result, remaining-input)`,
and machine-integer arithmetic is `Nat` with explicit `% 2 ^ w` where Go
truncates.  Every definition mirrors one Go function, named after it.
-/

set_option maxRecDepth 4000

namespace Relish

/-- Error classification.  The Go code mixes two error styles: the public
`relish.Error` values with an `ErrorKind` (errors.go) and plain
`errors.New` values in package `internal`.  Each distinct error site gets
one constructor here. -/
inductive Err
  | invalidTypeID       -- internal: "invalid type id (top bit set)"
  | lengthOutOfRange    -- internal WriteLen: "length out of range"
  | invalidLength       -- internal ReadLen: "invalid length"
  | unexpectedTypeId    -- internal: "unexpected type id for <T>"
  | invalidUTF8         -- internal: "invalid utf-8"
  | invalidBool         -- internal: "invalid bool value"
  | eof                 -- io.EOF / io.ErrUnexpectedEOF from ReadFull
  | arrayTooShort       -- internal: "array content too short"
  | enumTooShort        -- internal: "enum content too short"
  | mapTooShort         -- internal: "map content too short"
  | errTypeMismatch     -- relish.Error ErrTypeMismatch
  | errInvalidFieldID   -- relish.Error ErrInvalidFieldID
  | errFieldOrder       -- relish.Error ErrFieldOrder
  | errEnumLengthMismatch -- relish.Error ErrEnumLengthMismatch
  | errNotImplemented   -- relish.ErrNotImplemented
  | duplicateMapKey     -- textrep: "duplicate map key"
  | duplicateFieldId    -- textrep: "duplicate field id"
  | invalidKeyTLV       -- textrep: "invalid key tlv"
  | invalidValueTLV     -- textrep: "invalid value tlv"
  | fieldIdOutOfRange   -- textrep: "field id out of range"
  deriving DecidableEq, Repr

instance {ε α : Type} [DecidableEq ε] [DecidableEq α] : DecidableEq (Except ε α) := fun a b =>
  match a, b with
  | .error x, .error y =>
    if h : x = y then .isTrue (by rw [h]) else .isFalse (by simp [h])
  | .ok x, .ok y =>
    if h : x = y then .isTrue (by rw [h]) else .isFalse (by simp [h])
  | .error _, .ok _ => .isFalse (by simp)
  | .ok _, .error _ => .isFalse (by simp)

/-- relish/internal/lengths.go: `MaxLen = 1<<31 - 1`. -/
def MaxLen : Nat := 2 ^ 31 - 1

/-- relish/internal/lengths.go `SizeOfLen`: bytes needed to encode a
length.  Go takes a (possibly negative) `int`; the negative branch of the
guard is folded into the `Nat` domain here, and every call site in the
repository passes a non-negative buffer length. -/
def SizeOfLen (n : Nat) : Int :=
  if n > MaxLen then -1
  else if n ≤ 0x7F then 1
  else 4

/-- relish/internal/lengths.go `EncodeLen`: tagged-varint length encoding.
Short form writes `byte((n<<1)&0xFE)`; long form truncates to `uint32`
and writes four little-endian tagged bytes. -/
def EncodeLen (n : Nat) : List Nat :=
  if n ≤ 0x7F then [(2 * n) % 256]
  else
    let u := n % 2 ^ 32
    [((u % 0x80) * 2 + 1) % 256, (u >>> 7) % 256, (u >>> 15) % 256, (u >>> 23) % 256]

/-- relish/internal/lengths.go `DecodeLen`: returns (value, bytes
consumed), or (-1, 0) on malformed input.  The long-form reassembly is
Go `uint32` arithmetic, hence the `% 2 ^ 32`. -/
def DecodeLen (src : List Nat) : Int × Nat :=
  match src with
  | [] => (-1, 0)
  | b0 :: rest =>
    if b0 % 2 = 0 then ((b0 / 2 : Nat), 1)
    else
      match rest with
      | b1 :: b2 :: b3 :: _ =>
        let n : Nat := ((b0 >>> 1) ||| (b1 <<< 7) ||| (b2 <<< 15) ||| (b3 <<< 23)) % 2 ^ 32
        if n > MaxLen then (-1, 0) else ((n : Nat), 4)
      | _ => (-1, 0)

/-- Bits below position `k` and a shifted value do not overlap, so their
bitwise or is an addition. -/
theorem lor_shiftLeft_eq_add {a : Nat} (b k : Nat) (h : a < 2 ^ k) :
    a ||| (b <<< k) = 2 ^ k * b + a := by
  rw [Nat.shiftLeft_eq, Nat.lor_comm, Nat.mul_comm b (2 ^ k)]
  exact (Nat.mul_add_lt_is_or h b).symm

/-- Long-form tagged-varint reassembly recovers the encoded value. -/
theorem longform_reassemble {n : Nat} (h : n < 2 ^ 31) :
    (n % 0x80) ||| (((n >>> 7) % 256) <<< 7) ||| (((n >>> 15) % 256) <<< 15) |||
      (((n >>> 23) % 256) <<< 23) = n := by
  have h0 : n % 0x80 < 2 ^ 7 := Nat.mod_lt _ (by norm_num)
  rw [lor_shiftLeft_eq_add _ 7 h0]
  have h1 : 2 ^ 7 * ((n >>> 7) % 256) + n % 0x80 < 2 ^ 15 := by
    have : (n >>> 7) % 256 < 256 := Nat.mod_lt _ (by norm_num)
    omega
  rw [lor_shiftLeft_eq_add _ 15 h1]
  have h2 : 2 ^ 15 * ((n >>> 15) % 256) + (2 ^ 7 * ((n >>> 7) % 256) + n % 0x80) < 2 ^ 23 := by
    have ha : (n >>> 15) % 256 < 256 := Nat.mod_lt _ (by norm_num)
    have hb : (n >>> 7) % 256 < 256 := Nat.mod_lt _ (by norm_num)
    omega
  rw [lor_shiftLeft_eq_add _ 23 h2]
  have e7 : n >>> 7 = n / 2 ^ 7 := Nat.shiftRight_eq_div_pow n 7
  have e15 : n >>> 15 = n / 2 ^ 15 := Nat.shiftRight_eq_div_pow n 15
  have e23 : n >>> 23 = n / 2 ^ 23 := Nat.shiftRight_eq_div_pow n 23
  rw [e7, e15, e23]
  omega

/-- C5: for every `n` in `[0, 2^31 - 1]`, `DecodeLen` applied to the bytes
produced by `EncodeLen` returns `(n, SizeOfLen n)`; `EncodeLen` uses
exactly one byte iff `n ≤ 127` and exactly four bytes otherwise; and
`DecodeLen` of a one-byte input whose low bit is 1 fails with `(-1, 0)`. -/
theorem c5_length_codec_laws (n b : Nat) (hn : n ≤ MaxLen) (hb : b % 2 = 1) :
    DecodeLen (EncodeLen n) = ((n : Int), (EncodeLen n).length) ∧
    ((EncodeLen n).length : Int) = SizeOfLen n ∧
    ((EncodeLen n).length = 1 ↔ n ≤ 127) ∧
    ((EncodeLen n).length = 4 ↔ 127 < n) ∧
    DecodeLen [b] = (-1, 0) := by
  have hmax : n < 2 ^ 31 := by
    have : MaxLen = 2 ^ 31 - 1 := rfl
    omega
  have hfail : DecodeLen [b] = (-1, 0) := by
    unfold DecodeLen
    simp [Nat.mod_two_ne_zero.mpr hb, hb]
  by_cases hs : n ≤ 0x7F
  · have henc : EncodeLen n = [(2 * n) % 256] := by unfold EncodeLen; simp [hs]
    have h2n : (2 * n) % 256 = 2 * n := Nat.mod_eq_of_lt (by omega)
    refine ⟨?_, ?_, ?_, ?_, hfail⟩
    · rw [henc]
      unfold DecodeLen
      simp [h2n, Nat.mul_div_cancel_left n (by norm_num : 0 < 2)]
    · rw [henc]
      unfold SizeOfLen
      simp [hs, Nat.not_lt.mpr hn]
    · simp [henc]; omega
    · simp [henc]; omega
  · have hu : n % 2 ^ 32 = n := Nat.mod_eq_of_lt (by omega)
    have henc : EncodeLen n =
        [(n % 0x80) * 2 + 1, (n >>> 7) % 256, (n >>> 15) % 256, (n >>> 23) % 256] := by
      unfold EncodeLen
      simp only [hs, if_false]
      rw [hu]
      have : ((n % 0x80) * 2 + 1) % 256 = (n % 0x80) * 2 + 1 := by
        have : n % 0x80 < 0x80 := Nat.mod_lt _ (by norm_num)
        omega
      rw [this]
    refine ⟨?_, ?_, ?_, ?_, hfail⟩
    · rw [henc]
      unfold DecodeLen
      have hodd : ¬ ((n % 0x80) * 2 + 1) % 2 = 0 := by omega
      simp only [hodd, if_false]
      have hshift : ((n % 0x80) * 2 + 1) >>> 1 = n % 0x80 := by
        rw [Nat.shiftRight_eq_div_pow]
        omega
      rw [hshift, longform_reassemble hmax]
      rw [Nat.mod_eq_of_lt (by omega : n < 2 ^ 32)]
      simp [Nat.not_lt.mpr hn]
    · rw [henc]
      unfold SizeOfLen
      simp [hs, Nat.not_lt.mpr hn]
    · simp [henc]; omega
    · simp [henc]; omega

/-- Concrete instantiation of the length-codec laws at `n = 300`, `b = 3`. -/
theorem c5_length_codec_laws_witness :
    DecodeLen (EncodeLen 300) = ((300 : Int), (EncodeLen 300).length) ∧
    ((EncodeLen 300).length : Int) = SizeOfLen 300 ∧
    ((EncodeLen 300).length = 1 ↔ 300 ≤ 127) ∧
    ((EncodeLen 300).length = 4 ↔ 127 < 300) ∧
    DecodeLen [3] = (-1, 0) :=
  c5_length_codec_laws 300 3 (by decide) (by decide)

/-! ## Byte-stream primitives (relish/internal/tlv.go, binary.go) -/

/-- relish/internal/tlv.go `ReadType`: one ID byte; the reserved top bit
(`b & 0x80 != 0`) is rejected. -/
def ReadType (l : List Nat) : Except Err (Nat × List Nat) :=
  match l with
  | [] => .error .eof
  | b :: rest => if b &&& 0x80 ≠ 0 then .error .invalidTypeID else .ok (b, rest)

/-- relish/internal binary.go `ReadFull`: read exactly `k` bytes or fail
with an end-of-input error. -/
def ReadFull (k : Nat) (l : List Nat) : Except Err (List Nat × List Nat) :=
  if l.length < k then .error .eof else .ok (l.take k, l.drop k)

/-- relish/internal/tlv.go `ReadLen`: read a tagged-varint length,
returning (value, bytes consumed, remaining input). -/
def ReadLen (l : List Nat) : Except Err (Nat × Nat × List Nat) :=
  match l with
  | [] => .error .eof
  | b0 :: rest =>
    if b0 % 2 = 0 then .ok (b0 / 2, 1, rest)
    else
      match rest with
      | b1 :: b2 :: b3 :: rest2 =>
        let n := ((b0 >>> 1) ||| (b1 <<< 7) ||| (b2 <<< 15) ||| (b3 <<< 23)) % 2 ^ 32
        if n > MaxLen then .error .invalidLength else .ok (n, 4, rest2)
      | _ => .error .eof

/-- relish/internal/tlv.go `WriteLen`: emitted bytes of a tagged-varint
length, failing when the length is out of range. -/
def WriteLen (n : Nat) : Except Err (List Nat) :=
  if SizeOfLen n < 0 then .error .lengthOutOfRange else .ok (EncodeLen n)

/-- relish/internal/tlv.go `FixedSize`: (content size, is-fixed) for a
type ID.  Varsize and unknown IDs both map to `(0, false)`. -/
def FixedSize (t : Nat) : Nat × Bool :=
  if t = 0x00 then (0, true)
  else if t = 0x01 then (1, true)
  else if t = 0x02 then (1, true)
  else if t = 0x03 then (2, true)
  else if t = 0x04 then (4, true)
  else if t = 0x05 then (8, true)
  else if t = 0x06 then (16, true)
  else if t = 0x07 then (1, true)
  else if t = 0x08 then (2, true)
  else if t = 0x09 then (4, true)
  else if t = 0x0A then (8, true)
  else if t = 0x0B then (16, true)
  else if t = 0x0C then (4, true)
  else if t = 0x0D then (8, true)
  else if t = 0x13 then (8, true)
  else (0, false)

/-- relish/internal/tlv.go `IsVarSize`. -/
def IsVarSize (t : Nat) : Bool :=
  t = 0x0E || t = 0x0F || t = 0x10 || t = 0x11 || t = 0x12

/-- relish/decoder.go `readTLVBytes`: read one complete TLV and return its
bytes plus the remaining input.  For variable-size types the header is
re-encoded from a zero-initialised four-byte scratch array, exactly as the
Go code copies `tmp[:used]`. -/
def readTLVBytes (l : List Nat) : Except Err (List Nat × List Nat) :=
  match ReadType l with
  | .error e => .error e
  | .ok (t, r1) =>
    match FixedSize t with
    | (n, true) =>
      if n = 0 then .ok ([t], r1)
      else
        match ReadFull n r1 with
        | .error e => .error e
        | .ok (content, r2) => .ok (t :: content, r2)
    | (_, false) =>
      match ReadLen r1 with
      | .error e => .error e
      | .ok (n, used, r2) =>
        let hdr := t :: (EncodeLen n ++ [0, 0, 0]).take used
        match ReadFull n r2 with
        | .error e => .error e
        | .ok (content, r3) => .ok (hdr ++ content, r3)

/-- decoder.go `SkipValue`: the method body is
`func (d *Decoder) SkipValue() error { return ErrNotImplemented }` —
a stub that consumes nothing and always fails. -/
def SkipValue (_input : List Nat) : Except Err (Unit × List Nat) :=
  .error .errNotImplemented

/-- A byte below 0x80 has the reserved bit clear. -/
theorem land128_of_lt {b : Nat} (h : b < 128) : b &&& 0x80 = 0 := by
  have : (0x80 : Nat) = 2 ^ 7 := by norm_num
  rw [this, Nat.and_two_pow]
  have : b.testBit 7 = false := Nat.testBit_eq_false_of_lt (by omega)
  simp [this]

/-- A byte in 0x80..0xFF has the reserved bit set. -/
theorem land128_ne_zero {b : Nat} (h1 : 128 ≤ b) (h2 : b < 256) : b &&& 0x80 ≠ 0 := by
  have e : (0x80 : Nat) = 2 ^ 7 := by norm_num
  rw [e, Nat.and_two_pow]
  have : b.testBit 7 = true := by
    rw [Nat.testBit_to_div_mod]
    simp only [decide_eq_true_eq]
    omega
  simp [this]

/-- Reading back a canonically encoded length returns the value, the
encoded size, and the untouched tail. -/
theorem ReadLen_encode {m : Nat} (hm : m ≤ MaxLen) (tail : List Nat) :
    ReadLen (EncodeLen m ++ tail) = .ok (m, (EncodeLen m).length, tail) := by
  have hmax : m < 2 ^ 31 := by
    have : MaxLen = 2 ^ 31 - 1 := rfl
    omega
  by_cases hs : m ≤ 0x7F
  · have henc : EncodeLen m = [(2 * m) % 256] := by unfold EncodeLen; simp [hs]
    have h2m : (2 * m) % 256 = 2 * m := Nat.mod_eq_of_lt (by omega)
    rw [henc, h2m]
    unfold ReadLen
    simp only [List.cons_append, List.nil_append]
    have heven : (2 * m) % 2 = 0 := by omega
    simp [heven]
  · have hu : m % 2 ^ 32 = m := Nat.mod_eq_of_lt (by omega)
    have henc : EncodeLen m =
        [(m % 0x80) * 2 + 1, (m >>> 7) % 256, (m >>> 15) % 256, (m >>> 23) % 256] := by
      unfold EncodeLen
      simp only [hs, if_false]
      rw [hu]
      have : ((m % 0x80) * 2 + 1) % 256 = (m % 0x80) * 2 + 1 := by
        have : m % 0x80 < 0x80 := Nat.mod_lt _ (by norm_num)
        omega
      rw [this]
    rw [henc]
    unfold ReadLen
    simp only [List.cons_append]
    have hodd : ¬ ((m % 0x80) * 2 + 1) % 2 = 0 := by omega
    simp only [hodd, if_false]
    have hshift : ((m % 0x80) * 2 + 1) >>> 1 = m % 0x80 := by
      rw [Nat.shiftRight_eq_div_pow]
      omega
    rw [hshift, longform_reassemble hmax, Nat.mod_eq_of_lt (by omega : m < 2 ^ 32)]
    simp [Nat.not_lt.mpr hm]

/-- Reading back exactly the bytes that are there. -/
theorem ReadFull_exact {body : List Nat} {k : Nat} (h : body.length = k) (tail : List Nat) :
    ReadFull k (body ++ tail) = .ok (body, tail) := by
  unfold ReadFull
  have hlen : (body ++ tail).length = k + tail.length := by simp [h]
  rw [List.take_left' h, List.drop_left' h]
  simp [hlen]

/-- C8: `Decoder.SkipValue` is claimed to consume exactly one complete TLV
and return success; the implementation is an explicit stub that consumes
no input and always returns ErrNotImplemented. -/
theorem c8_skip_value_stub (input : List Nat) :
    SkipValue input = .error .errNotImplemented := rfl

/-- Reading a type byte with the reserved bit clear succeeds. -/
theorem ReadType_ok {t : Nat} (ht : t &&& 0x80 = 0) (rest : List Nat) :
    ReadType (t :: rest) = .ok (t, rest) := by
  unfold ReadType
  simp [ht]

/-- Reading a type byte with the reserved bit set fails. -/
theorem ReadType_err {b : Nat} (hb : b &&& 0x80 ≠ 0) (rest : List Nat) :
    ReadType (b :: rest) = .error .invalidTypeID := by
  unfold ReadType
  simp [hb]

/-- The skip path rejects a reserved-bit type byte. -/
theorem readTLVBytes_reserved {b : Nat} (hb : b &&& 0x80 ≠ 0) (rest : List Nat) :
    readTLVBytes (b :: rest) = .error .invalidTypeID := by
  unfold readTLVBytes
  rw [ReadType_err hb]

/-- The skip path consumes a fixed-size TLV exactly. -/
theorem readTLVBytes_fixed (t szf : Nat) (content : List Nat)
    (ht : t &&& 0x80 = 0) (hf : FixedSize t = (szf, true))
    (hc : content.length = szf) (rest2 : List Nat) :
    readTLVBytes (t :: (content ++ rest2)) = .ok (t :: content, rest2) := by
  unfold readTLVBytes
  rw [ReadType_ok ht]
  dsimp only
  rw [hf]
  by_cases hz : szf = 0
  · subst hz
    have : content = [] := List.eq_nil_of_length_eq_zero hc
    subst this
    simp
  · simp only [hz, if_false]
    rw [ReadFull_exact hc rest2]

/-- The skip path consumes a variable-size (or undefined-ID) TLV exactly:
length prefix plus that many payload bytes. -/
theorem readTLVBytes_var (u m : Nat) (body : List Nat)
    (hu : u &&& 0x80 = 0) (hv : (FixedSize u).2 = false)
    (hm : m ≤ MaxLen) (hbody : body.length = m) (rest3 : List Nat) :
    readTLVBytes (u :: (EncodeLen m ++ (body ++ rest3))) =
      .ok (u :: (EncodeLen m ++ body), rest3) := by
  unfold readTLVBytes
  rw [ReadType_ok hu]
  dsimp only
  have hfu : FixedSize u = ((FixedSize u).1, false) := by
    rw [← hv]
  rw [hfu]
  dsimp only
  rw [ReadLen_encode hm (body ++ rest3)]
  dsimp only
  rw [List.take_left (EncodeLen m) [0, 0, 0]]
  rw [ReadFull_exact hbody rest3]
  simp

/-- C9 counterexample: the claim says the skip path fails on any type ID
outside 0x00–0x13, but `readTLVBytes` treats the undefined ID 0x14 as a
variable-size type and happily consumes a length-prefixed TLV. -/
theorem c9_skip_tlv_cex : readTLVBytes [0x14, 0x00] = .ok ([0x14, 0x00], []) := rfl

/-- C9 (amended): the skip path rejects any type byte with the reserved
bit set; every defined fixed-size type ID consumes exactly its type byte
plus its table-given content size; and every type ID with the reserved
bit clear that is not in the fixed-size table — the five defined
variable-size IDs but also every undefined ID in 0x14..0x7F — consumes a
length prefix plus that many payload bytes. -/
theorem c9_skip_tlv (b t u szf m : Nat) (rest rest2 rest3 content body : List Nat)
    (hb : b &&& 0x80 ≠ 0)
    (ht : t &&& 0x80 = 0) (hf : FixedSize t = (szf, true)) (hc : content.length = szf)
    (hu : u &&& 0x80 = 0) (hv : (FixedSize u).2 = false)
    (hm : m ≤ MaxLen) (hbody : body.length = m) :
    readTLVBytes (b :: rest) = .error .invalidTypeID ∧
    readTLVBytes (t :: (content ++ rest2)) = .ok (t :: content, rest2) ∧
    readTLVBytes (u :: (EncodeLen m ++ (body ++ rest3))) =
      .ok (u :: (EncodeLen m ++ body), rest3) :=
  ⟨readTLVBytes_reserved hb rest, readTLVBytes_fixed t szf content ht hf hc rest2,
    readTLVBytes_var u m body hu hv hm hbody rest3⟩

/-- Concrete instantiation of the skip-path behaviour: reserved byte
0x80 is rejected, a Bool TLV and a String TLV are consumed exactly. -/
theorem c9_skip_tlv_witness :
    readTLVBytes (0x80 :: []) = .error .invalidTypeID ∧
    readTLVBytes (0x01 :: ([0xFF] ++ [])) = .ok (0x01 :: [0xFF], []) ∧
    readTLVBytes (0x0E :: (EncodeLen 2 ++ ([0x68, 0x69] ++ []))) =
      .ok (0x0E :: (EncodeLen 2 ++ [0x68, 0x69]), []) :=
  c9_skip_tlv 0x80 0x01 0x0E 1 2 [] [] [] [0xFF] [0x68, 0x69]
    (by decide) (by decide) (by decide) (by decide) (by decide) (by decide)
    (by decide) (by decide)

/-! ## Map TLV framing (relish/internal/tlv.go) and the text-representation
duplicate checks (textrep encoder) -/

/-- relish/internal/tlv.go `WriteMapTLV`.  The Go function takes a
`writePairs` closure that stages raw pair encodings; its output is taken
here as the `pairs` byte list.  Only the two type-ID reserved bits and
the length range are checked — the pair bytes pass through untouched. -/
def WriteMapTLV (keyType valueType : Nat) (pairs : List Nat) : Except Err (List Nat) :=
  if keyType &&& 0x80 ≠ 0 ∨ valueType &&& 0x80 ≠ 0 then .error .invalidTypeID
  else
    let content := keyType :: valueType :: pairs
    match WriteLen content.length with
    | .error e => .error e
    | .ok lenBytes => .ok (0x10 :: (lenBytes ++ content))

/-- relish/internal/tlv.go `ReadMapTLV`: returns key/value type IDs and
the raw pair payload; no inspection of the pairs themselves. -/
def ReadMapTLV (l : List Nat) : Except Err ((Nat × Nat × List Nat) × List Nat) :=
  match ReadType l with
  | .error e => .error e
  | .ok (t, r1) =>
    if t ≠ 0x10 then .error .unexpectedTypeId
    else
      match ReadLen r1 with
      | .error e => .error e
      | .ok (n, _, r2) =>
        if n < 2 then .error .mapTooShort
        else
          match ReadFull n r2 with
          | .error e => .error e
          | .ok (buf, r3) =>
            match buf with
            | kt :: vt :: payload =>
              if kt &&& 0x80 ≠ 0 ∨ vt &&& 0x80 ≠ 0 then .error .invalidTypeID
              else .ok ((kt, vt, payload), r3)
            | _ => .error .mapTooShort -- unreachable: ReadFull returned n ≥ 2 bytes

/-- textrep `encodeValueTLV`, `valMap` case: the pair loop with its
duplicate-key scan.  Each Go pair is `(encodeValueTLV(p.k),
encodeValueTLV(p.v))`; those full key/value TLV byte lists are the inputs
here, and `seen` accumulates the serialized key payloads. -/
def textrepWriteMapPairs (pairs : List (List Nat × List Nat)) (seen : List (List Nat)) :
    Except Err (List Nat) :=
  match pairs with
  | [] => .ok []
  | (ktlv, vtlv) :: rest =>
    if ktlv.length < 1 then .error .invalidKeyTLV
    else
      let keyPayload := ktlv.drop 1
      if keyPayload ∈ seen then .error .duplicateMapKey
      else if vtlv.length < 1 then .error .invalidValueTLV
      else
        match textrepWriteMapPairs rest (keyPayload :: seen) with
        | .error e => .error e
        | .ok out => .ok (keyPayload ++ ((vtlv.drop 1) ++ out))

/-- The textrep pair loop fails with the duplicate-key error whenever the
serialized key payloads contain a repeat (or revisit one already seen),
provided every key and value TLV is nonempty. -/
theorem textrepWriteMapPairs_dup (pairs : List (List Nat × List Nat))
    (seen : List (List Nat))
    (hne : ∀ p ∈ pairs, 1 ≤ p.1.length ∧ 1 ≤ p.2.length)
    (h : ¬ (pairs.map (fun p => p.1.drop 1)).Nodup ∨
      ∃ p ∈ pairs, p.1.drop 1 ∈ seen) :
    textrepWriteMapPairs pairs seen = .error .duplicateMapKey := by
  induction pairs generalizing seen with
  | nil =>
    rcases h with h | ⟨p, hp, _⟩
    · exact absurd List.nodup_nil h
    · exact absurd hp (List.not_mem_nil p)
  | cons hd tl ih =>
    obtain ⟨ktlv, vtlv⟩ := hd
    have hk : 1 ≤ ktlv.length := (hne (ktlv, vtlv) (List.mem_cons_self _ _)).1
    have hv : 1 ≤ vtlv.length := (hne (ktlv, vtlv) (List.mem_cons_self _ _)).2
    unfold textrepWriteMapPairs
    simp only [Nat.not_lt.mpr hk, Nat.lt_irrefl, if_false]
    by_cases hseen : ktlv.drop 1 ∈ seen
    · rw [List.drop_one] at hseen
      simp [hseen, Nat.not_lt.mpr hk]
    · have hrec : textrepWriteMapPairs tl (ktlv.drop 1 :: seen) = .error .duplicateMapKey := by
        apply ih
        · intro p hp
          exact hne p (List.mem_cons_of_mem _ hp)
        · rcases h with h | ⟨p, hp, hpseen⟩
          · rw [List.map_cons, List.nodup_cons] at h
            push_neg at h
            by_cases hmem : ktlv.drop 1 ∈ tl.map (fun p => p.1.drop 1)
            · obtain ⟨p, hp, hpe⟩ := List.mem_map.mp hmem
              exact Or.inr ⟨p, hp, by rw [hpe]; exact List.mem_cons_self _ _⟩
            · exact Or.inl (fun hnd => (h hmem hnd).elim)
          · rcases List.mem_cons.mp hp with rfl | hp
            · exact absurd hpseen hseen
            · exact Or.inr ⟨p, hp, List.mem_cons_of_mem _ hpseen⟩
      rw [List.drop_one] at hseen hrec
      have hvne : vtlv ≠ [] := by
        intro hnil
        rw [hnil] at hv
        simp at hv
      simp [hseen, hvne, Nat.not_lt.mpr hk, Nat.not_lt.mpr hv, hrec]

/-- C6 counterexample: the claim says `WriteMapTLV` and `ReadMapTLV`
reject byte-equal duplicate keys with a DuplicateMapKey error; on a
u32-to-u32 map whose pair payload repeats the key 1, both succeed. -/
theorem c6_map_duplicate_keys_cex :
    WriteMapTLV 0x04 0x04
      [1, 0, 0, 0, 2, 0, 0, 0, 1, 0, 0, 0, 3, 0, 0, 0] =
      .ok [0x10, 0x24, 0x04, 0x04, 1, 0, 0, 0, 2, 0, 0, 0, 1, 0, 0, 0, 3, 0, 0, 0] ∧
    ReadMapTLV [0x10, 0x24, 0x04, 0x04, 1, 0, 0, 0, 2, 0, 0, 0, 1, 0, 0, 0, 3, 0, 0, 0] =
      .ok ((0x04, 0x04, [1, 0, 0, 0, 2, 0, 0, 0, 1, 0, 0, 0, 3, 0, 0, 0]), []) := by
  constructor <;> rfl

/-- C6 (amended): `WriteMapTLV` and `ReadMapTLV` pass map pair payloads
through without any duplicate-key inspection — both succeed on arbitrary
pair bytes, duplicates included; the duplicate-key rejection by
byte-equal serialized key payload lives one layer up, in the textrep
encoder, which fails with the duplicate-key error. -/
theorem c6_map_duplicate_keys (kt vt : Nat) (content : List Nat)
    (pairs : List (List Nat × List Nat))
    (hkt : kt &&& 0x80 = 0) (hvt : vt &&& 0x80 = 0)
    (hlen : 2 + content.length ≤ MaxLen)
    (hne : ∀ p ∈ pairs, 1 ≤ p.1.length ∧ 1 ≤ p.2.length)
    (hdup : ¬ (pairs.map (fun p => p.1.drop 1)).Nodup) :
    WriteMapTLV kt vt content =
      .ok (0x10 :: (EncodeLen (2 + content.length) ++ (kt :: vt :: content))) ∧
    ReadMapTLV (0x10 :: (EncodeLen (2 + content.length) ++ (kt :: vt :: content))) =
      .ok ((kt, vt, content), []) ∧
    textrepWriteMapPairs pairs [] = .error .duplicateMapKey := by
  have hcontentlen : (kt :: vt :: content).length = 2 + content.length := by
    simp only [List.length_cons]
    omega
  have hsz : ¬ SizeOfLen (2 + content.length) < 0 := by
    unfold SizeOfLen
    rw [if_neg (Nat.not_lt.mpr hlen)]
    split <;> norm_num
  refine ⟨?_, ?_, textrepWriteMapPairs_dup pairs [] hne (Or.inl hdup)⟩
  · unfold WriteMapTLV
    simp only [hkt, hvt, ne_eq, not_true_eq_false, or_self, if_false]
    unfold WriteLen
    simp only [hcontentlen, hsz, if_false]
  · unfold ReadMapTLV
    rw [ReadType_ok (by decide) _]
    dsimp only
    rw [ReadLen_encode hlen (kt :: vt :: content)]
    dsimp only
    have h2 : ¬ (2 + content.length < 2) := by omega
    simp only [h2, if_false]
    have : ReadFull (2 + content.length) (kt :: vt :: content) =
        .ok (kt :: vt :: content, []) := by
      have := @ReadFull_exact (kt :: vt :: content) _ hcontentlen []
      simpa using this
    rw [this]
    dsimp only
    simp [hkt, hvt]

/-! ## Schema projection model.

The reflection-driven schema layer (Encoder.encodeStruct / encodeValue in
the encoder source, Decoder.Decode / decodeStructInto / decodeEnumInto in
decoder.go) is embedded over the value universe the claims quantify over:
structs whose relish-tagged fields hold bool, uint32 or string, directly
or behind one pointer.  A `Field` bundles what `reflect.StructField` plus
`ParseRelishTag` provide (field ID, optional, omitempty, the field's
static type) with the runtime value. -/

/-- The pointee types appearing in the claims: Go bool, uint32, string. -/
inductive PrimTy
  | tBool
  | tU32
  | tStr
  deriving DecidableEq, Repr

/-- A primitive runtime value.  Go strings are byte lists. -/
inductive PrimVal
  | vBool (b : Bool)
  | vU32 (n : Nat)
  | vStr (s : List Nat)
  deriving DecidableEq, Repr

/-- The zero value of a primitive type (`reflect.Zero`). -/
def zeroOf : PrimTy → PrimVal
  | .tBool => .vBool false
  | .tU32 => .vU32 0
  | .tStr => .vStr []

/-- Whether a runtime value inhabits a primitive type. -/
def PrimVal.hasTy : PrimVal → PrimTy → Bool
  | .vBool _, .tBool => true
  | .vU32 _, .tU32 => true
  | .vStr _, .tStr => true
  | _, _ => false

/-- Machine-representable values: uint32 fits 32 bits, string bytes fit
in a byte.  Go's type system guarantees this for every runtime value. -/
def PrimVal.bytesOk : PrimVal → Bool
  | .vBool _ => true
  | .vU32 n => n < 2 ^ 32
  | .vStr s => s.all (fun b => b < 256)

/-- A struct field's runtime value: held directly or behind a pointer
(`nil` = `none`). -/
inductive GoVal
  | direct (v : PrimVal)
  | ptr (v : Option PrimVal)
  deriving DecidableEq, Repr

/-- reflect `Kind() == reflect.Pointer`. -/
def GoVal.isPtr : GoVal → Bool
  | .ptr _ => true
  | .direct _ => false

/-- Pointer and non-nil (`Kind() == Pointer && !IsNil()`). -/
def GoVal.ptrPresent : GoVal → Bool
  | .ptr (some _) => true
  | _ => false

/-- One relish-tagged struct field: the tag data from `ParseRelishTag`
(`relish:"<id>[,optional][,omitempty]"`), the field's static type, and its
current value. -/
structure Field where
  id : Nat
  optional : Bool
  omitempty : Bool
  ty : PrimTy
  val : GoVal
  deriving DecidableEq, Repr

/-- A struct value: its relish-tagged fields in declaration order. -/
structure GoStruct where
  fields : List Field
  deriving DecidableEq, Repr

/-- The zero value of a field (what `reflect.New` on the struct type
yields): direct fields get the type's zero, pointers become nil. -/
def zeroField (f : Field) : Field :=
  { f with
    val := match f.val with
      | .direct _ => .direct (zeroOf f.ty)
      | .ptr _ => .ptr none }

/-- The zero value of a struct type. -/
def zeroStruct (s : GoStruct) : GoStruct := ⟨s.fields.map zeroField⟩

/-- Continuation byte of a UTF-8 sequence (0x80..0xBF). -/
def contByte (b : Nat) : Bool := 0x80 ≤ b && b ≤ 0xBF

/-- Go `unicode/utf8.Valid`: standard UTF-8 well-formedness — no overlong
encodings, no surrogates, no code points above U+10FFFF. -/
def utf8Valid : List Nat → Bool
  | [] => true
  | b :: rest =>
    if b ≤ 0x7F then utf8Valid rest
    else if 0xC2 ≤ b && b ≤ 0xDF then
      match rest with
      | c1 :: r => contByte c1 && utf8Valid r
      | [] => false
    else if 0xE0 ≤ b && b ≤ 0xEF then
      match rest with
      | c1 :: c2 :: r =>
        (if b = 0xE0 then decide (0xA0 ≤ c1) && decide (c1 ≤ 0xBF)
         else if b = 0xED then decide (0x80 ≤ c1) && decide (c1 ≤ 0x9F)
         else contByte c1) && contByte c2 && utf8Valid r
      | _ => false
    else if 0xF0 ≤ b && b ≤ 0xF4 then
      match rest with
      | c1 :: c2 :: c3 :: r =>
        (if b = 0xF0 then decide (0x90 ≤ c1) && decide (c1 ≤ 0xBF)
         else if b = 0xF4 then decide (0x80 ≤ c1) && decide (c1 ≤ 0x8F)
         else contByte c1) && contByte c2 && contByte c3 && utf8Valid r
      | _ => false
    else false

/-- relish/internal fixed.go `WriteBoolTLV`: `[0x01][0x00|0xFF]`. -/
def WriteBoolTLV (v : Bool) : List Nat := [0x01, if v then 0xFF else 0x00]

/-- binary.LittleEndian.PutUint32: four little-endian bytes. -/
def u32le (v : Nat) : List Nat :=
  [v % 256, (v >>> 8) % 256, (v >>> 16) % 256, (v >>> 24) % 256]

/-- relish/internal/tlv.go `WriteU32TLV`: `[0x04][LE u32]`.  The Go
argument has type uint32, so it is below `2 ^ 32`. -/
def WriteU32TLV (v : Nat) : List Nat := 0x04 :: u32le v

/-- relish/internal/tlv.go `WriteStringTLV`: validate UTF-8, then
`[0x0E][len][bytes]`. -/
def WriteStringTLV (s : List Nat) : Except Err (List Nat) :=
  if ¬ utf8Valid s then .error .invalidUTF8
  else
    match WriteLen s.length with
    | .error e => .error e
    | .ok lenBytes => .ok (0x0E :: (lenBytes ++ s))

/-- relish/internal fixed.go `ReadBoolTLV`: only 0x00 and 0xFF are legal
content bytes. -/
def ReadBoolTLV (l : List Nat) : Except Err (Bool × List Nat) :=
  match ReadType l with
  | .error e => .error e
  | .ok (t, r1) =>
    if t ≠ 0x01 then .error .unexpectedTypeId
    else
      match r1 with
      | [] => .error .eof
      | b :: r2 =>
        if b = 0x00 then .ok (false, r2)
        else if b = 0xFF then .ok (true, r2)
        else .error .invalidBool

/-- binary.LittleEndian.Uint32 on a four-byte buffer. -/
def leU32 (bts : List Nat) : Nat :=
  match bts with
  | b0 :: b1 :: b2 :: b3 :: _ => (b0 ||| (b1 <<< 8) ||| (b2 <<< 16) ||| (b3 <<< 24)) % 2 ^ 32
  | _ => 0

/-- relish/internal/tlv.go `ReadU32TLV`. -/
def ReadU32TLV (l : List Nat) : Except Err (Nat × List Nat) :=
  match ReadType l with
  | .error e => .error e
  | .ok (t, r1) =>
    if t ≠ 0x04 then .error .unexpectedTypeId
    else
      match ReadFull 4 r1 with
      | .error e => .error e
      | .ok (buf, r2) => .ok (leU32 buf, r2)

/-- relish/internal/tlv.go `ReadStringTLV`: type byte, length, content,
UTF-8 validation; an empty string reads no content. -/
def ReadStringTLV (l : List Nat) : Except Err (List Nat × List Nat) :=
  match ReadType l with
  | .error e => .error e
  | .ok (t, r1) =>
    if t ≠ 0x0E then .error .unexpectedTypeId
    else
      match ReadLen r1 with
      | .error e => .error e
      | .ok (n, _, r2) =>
        if n = 0 then .ok ([], r2)
        else
          match ReadFull n r2 with
          | .error e => .error e
          | .ok (buf, r3) =>
            if ¬ utf8Valid buf then .error .invalidUTF8
            else .ok (buf, r3)

/-- Encoder.encodeValue restricted to the primitive universe: dispatch on
the runtime kind to the matching TLV writer. -/
def encodePrim : PrimVal → Except Err (List Nat)
  | .vBool b => .ok (WriteBoolTLV b)
  | .vU32 n => .ok (WriteU32TLV n)
  | .vStr s => WriteStringTLV s

/-- Encoder.encodeValue's pointer handling: dereference, and a nil
pointer encodes as the zero value of the pointee type
(`rv = reflect.Zero(rv.Type().Elem())`). -/
def encodeGoVal (ty : PrimTy) : GoVal → Except Err (List Nat)
  | .direct v => encodePrim v
  | .ptr none => encodePrim (zeroOf ty)
  | .ptr (some v) => encodePrim v

/-- Encoder isZeroValue: nil test for pointers, deep equality with the
type's zero otherwise. -/
def isZeroValue (ty : PrimTy) : GoVal → Bool
  | .ptr v => v.isNone
  | .direct v => v == zeroOf ty

/-- encodeStruct's `sort.Slice(fields, le on id)`.  Go's sort is
unstable, so the order among equal IDs is unspecified there; insertion
sort picks one such order. -/
def sortFields (l : List Field) : List Field :=
  List.insertionSort (fun a b => a.id ≤ b.id) l

/-- encodeStruct's field-emission loop (the `WriteStructTLV` closure):
skip absent optionals and omitempty zeroes, then `[field id][value TLV]`
per remaining binding.  The id byte goes through `WriteType`, hence the
reserved-bit check.  No duplicate-ID detection happens here. -/
def emitFields : List Field → Except Err (List Nat)
  | [] => .ok []
  | f :: rest =>
    if f.optional && f.val.isPtr && !f.val.ptrPresent then emitFields rest
    else if f.omitempty && isZeroValue f.ty f.val then emitFields rest
    else if f.id &&& 0x80 ≠ 0 then .error .invalidTypeID
    else
      match encodeGoVal f.ty f.val with
      | .error e => .error e
      | .ok v =>
        match emitFields rest with
        | .error e => .error e
        | .ok out => .ok (f.id :: (v ++ out))

/-- relish/internal/tlv.go `WriteStructTLV` with the staged closure
output as `content`: `[0x11][len][content]`. -/
def WriteStructTLV (content : List Nat) : Except Err (List Nat) :=
  match WriteLen content.length with
  | .error e => .error e
  | .ok lenBytes => .ok (0x11 :: (lenBytes ++ content))

/-- relish/internal/tlv.go `WriteEnumTLV`: variant-ID reserved-bit check,
then `[0x12][len][variant id][inner TLV]`. -/
def WriteEnumTLV (variantID : Nat) (inner : List Nat) : Except Err (List Nat) :=
  if variantID &&& 0x80 ≠ 0 then .error .invalidTypeID
  else
    match WriteLen (variantID :: inner).length with
    | .error e => .error e
    | .ok lenBytes => .ok (0x12 :: (lenBytes ++ (variantID :: inner)))

/-- Encoder.encodeStruct: count optional and present-optional bindings;
if every binding is optional and exactly one is a non-nil pointer, emit
an Enum with that binding; otherwise emit a Struct with the bindings in
ascending ID order. -/
def encodeStruct (s : GoStruct) : Except Err (List Nat) :=
  let fields := s.fields
  let optCount := (fields.filter (fun f => f.optional)).length
  let presentOpt :=
    (fields.filter (fun f => f.optional && f.val.isPtr && f.val.ptrPresent)).length
  if 0 < fields.length ∧ optCount = fields.length ∧ presentOpt = 1 then
    match fields.find? (fun f => f.val.isPtr && f.val.ptrPresent) with
    | some f =>
      if f.id &&& 0x80 ≠ 0 then .error .invalidTypeID
      else
        match encodeGoVal f.ty f.val with
        | .error e => .error e
        | .ok inner => WriteEnumTLV f.id inner
    | none => -- unreachable: presentOpt = 1 guarantees a find
      match emitFields (sortFields fields) with
      | .error e => .error e
      | .ok content => WriteStructTLV content
  else
    match emitFields (sortFields fields) with
    | .error e => .error e
    | .ok content => WriteStructTLV content

/-- marshal.go `Marshal`: one-shot encode of a struct value. -/
def Marshal (s : GoStruct) : Except Err (List Nat) := encodeStruct s

/-- Decoder.Decode's primitive dispatch (the String/Bool/Uint32 arms),
decoding one TLV into a slot of the given static type. -/
def decodePrimInto (ty : PrimTy) (l : List Nat) : Except Err (PrimVal × List Nat) :=
  match ty with
  | .tBool =>
    match ReadBoolTLV l with
    | .error e => .error e
    | .ok (b, r) => .ok (.vBool b, r)
  | .tU32 =>
    match ReadU32TLV l with
    | .error e => .error e
    | .ok (n, r) => .ok (.vU32 n, r)
  | .tStr =>
    match ReadStringTLV l with
    | .error e => .error e
    | .ok (str, r) => .ok (.vStr str, r)

/-- decodeStructInto's `idToIndex` map build: iterate fields in order,
overwriting, so the last field with a given ID wins. -/
def idToIndexGo (fields : List Field) (id : Nat) (i : Nat) (acc : Option Nat) : Option Nat :=
  match fields with
  | [] => acc
  | f :: rest => idToIndexGo rest id (i + 1) (if f.id = id then some i else acc)

/-- Index of the field bound to a wire field ID, if any. -/
def idToIndex (fields : List Field) (id : Nat) : Option Nat :=
  idToIndexGo fields id 0 none

/-- decodeStructInto's per-field store: decode the extracted TLV into the
slot at `idx` (allocating through a pointer when the field is one). -/
def decodeFieldAt (dst : GoStruct) (idx : Nat) (tlv : List Nat) : Except Err GoStruct :=
  match dst.fields[idx]? with
  | none => .error .errTypeMismatch -- unreachable: idx comes from idToIndex
  | some f =>
    match decodePrimInto f.ty tlv with
    | .error e => .error e
    | .ok (v, _) =>
      let newVal := if f.val.isPtr then GoVal.ptr (some v) else GoVal.direct v
      .ok ⟨dst.fields.set idx { f with val := newVal }⟩

/-- `ReadFull` leaves a suffix no longer than its input. -/
theorem ReadFull_suffix {k : Nat} {l body r : List Nat}
    (h : ReadFull k l = .ok (body, r)) : r.length ≤ l.length := by
  unfold ReadFull at h
  split at h
  · exact absurd h (by simp)
  · simp only [Except.ok.injEq, Prod.mk.injEq] at h
    obtain ⟨_, h2⟩ := h
    subst h2
    simp

/-- `ReadLen` consumes at least one byte. -/
theorem ReadLen_suffix {l : List Nat} {n used : Nat} {r : List Nat}
    (h : ReadLen l = .ok (n, used, r)) : r.length + 1 ≤ l.length := by
  unfold ReadLen at h
  split at h
  · exact absurd h (by simp)
  · rename_i b0 rest
    split at h
    · simp only [Except.ok.injEq, Prod.mk.injEq] at h
      obtain ⟨_, _, h3⟩ := h
      subst h3
      simp
    · split at h
      · dsimp only at h
        split at h
        · exact absurd h (by simp)
        · simp only [Except.ok.injEq, Prod.mk.injEq] at h
          obtain ⟨_, _, h3⟩ := h
          subst h3
          simp only [List.length_cons]
          omega
      · exact absurd h (by simp)

/-- `readTLVBytes` consumes at least the type byte. -/
theorem readTLVBytes_suffix {l out r : List Nat}
    (h : readTLVBytes l = .ok (out, r)) : r.length + 1 ≤ l.length := by
  unfold readTLVBytes at h
  split at h
  · exact absurd h (by simp)
  · rename_i t r1 hT
    have hT1 : r1.length + 1 = l.length := by
      unfold ReadType at hT
      split at hT
      · exact absurd hT (by simp)
      · split at hT
        · exact absurd hT (by simp)
        · simp only [Except.ok.injEq, Prod.mk.injEq] at hT
          obtain ⟨_, h2⟩ := hT
          subst h2
          simp
    split at h
    · split at h
      · simp only [Except.ok.injEq, Prod.mk.injEq] at h
        obtain ⟨_, h2⟩ := h
        subst h2
        omega
      · split at h
        · exact absurd h (by simp)
        · rename_i hF
          simp only [Except.ok.injEq, Prod.mk.injEq] at h
          obtain ⟨_, h2⟩ := h
          subst h2
          have := ReadFull_suffix hF
          omega
    · split at h
      · exact absurd h (by simp)
      · rename_i n used r2 hL
        split at h
        · exact absurd h (by simp)
        · rename_i hF
          simp only [Except.ok.injEq, Prod.mk.injEq] at h
          obtain ⟨_, h2⟩ := h
          subst h2
          have := ReadFull_suffix hF
          have := ReadLen_suffix hL
          omega

/-- decodeStructInto's field loop: read a field-ID byte (reserved bit
check), enforce strictly increasing IDs starting from `prev = -1`, read
the complete field TLV, then decode into the bound slot or silently drop
it when the ID is unknown.  Structural recursion needs explicit fuel;
each iteration consumes at least two bytes, so `buf.length` fuel is never
exhausted (`decodeFieldsGo_fuel`) and the zero-fuel arm is unreachable. -/
def decodeFieldsGo (fuel : Nat) (dst : GoStruct) (buf : List Nat) (prev : Int) :
    Except Err GoStruct :=
  match buf with
  | [] => .ok dst
  | b :: rest =>
    if b &&& 0x80 ≠ 0 then .error .errInvalidFieldID
    else if (b : Int) ≤ prev then .error .errFieldOrder
    else
      match readTLVBytes rest with
      | .error e => .error e
      | .ok (tlv, rest2) =>
        match fuel with
        | 0 => .error .eof -- unreachable with fuel ≥ buf.length
        | fuel2 + 1 =>
          match idToIndex dst.fields b with
          | none => decodeFieldsGo fuel2 dst rest2 (b : Int)
          | some idx =>
            match decodeFieldAt dst idx tlv with
            | .error e => .error e
            | .ok dst2 => decodeFieldsGo fuel2 dst2 rest2 (b : Int)

/-- The field loop with its canonical fuel. -/
def decodeFields (dst : GoStruct) (buf : List Nat) (prev : Int) : Except Err GoStruct :=
  decodeFieldsGo buf.length dst buf prev

/-- Any fuel at least `buf.length` gives the same result: the loop is
fuel-independent in the reachable region. -/
theorem decodeFieldsGo_fuel (fuel1 : Nat) :
    ∀ (fuel2 : Nat) (dst : GoStruct) (buf : List Nat) (prev : Int),
    buf.length ≤ fuel1 → buf.length ≤ fuel2 →
    decodeFieldsGo fuel1 dst buf prev = decodeFieldsGo fuel2 dst buf prev := by
  induction fuel1 with
  | zero =>
    intro fuel2 dst buf prev h1 _
    have : buf = [] := List.eq_nil_of_length_eq_zero (Nat.le_zero.mp h1)
    subst this
    cases fuel2 <;> rfl
  | succ f1 ih =>
    intro fuel2 dst buf prev h1 h2
    match buf with
    | [] => cases fuel2 <;> rfl
    | b :: rest =>
      have hf2 : ∃ f2, fuel2 = f2 + 1 := by
        cases fuel2
        · simp at h2
        · exact ⟨_, rfl⟩
      obtain ⟨f2, rfl⟩ := hf2
      unfold decodeFieldsGo
      by_cases hb : b &&& 0x80 ≠ 0
      · simp [hb]
      · simp only [hb, if_false]
        by_cases hp : (b : Int) ≤ prev
        · simp [hp]
        · simp only [hp, if_false]
          cases hTLV : readTLVBytes rest with
          | error e => rfl
          | ok pr =>
            obtain ⟨tlv, rest2⟩ := pr
            dsimp only
            have hlen := readTLVBytes_suffix hTLV
            simp only [List.length_cons] at h1 h2
            have hr1 : rest2.length ≤ f1 := by omega
            have hr2 : rest2.length ≤ f2 := by omega
            cases hIdx : idToIndex dst.fields b with
            | none => exact ih f2 dst rest2 (b : Int) hr1 hr2
            | some idx =>
              dsimp only
              cases hD : decodeFieldAt dst idx tlv with
              | error e => rfl
              | ok dst2 => exact ih f2 dst2 rest2 (b : Int) hr1 hr2

/-- decoder.go `decodeStructInto` (after the 0x11 type byte): read the
declared length, take that many bytes, and run the field loop on them. -/
def decodeStructInto (dst : GoStruct) (l : List Nat) : Except Err (GoStruct × List Nat) :=
  match ReadLen l with
  | .error e => .error e
  | .ok (n, _, r1) =>
    if n = 0 then .ok (dst, r1)
    else
      match ReadFull n r1 with
      | .error e => .error e
      | .ok (buf, r2) =>
        match decodeFields dst buf (-1) with
        | .error e => .error e
        | .ok dst2 => .ok (dst2, r2)

/-- decodeEnumInto's variant lookup loop, carrying the running index. -/
def enumFindIdxGo (fields : List Field) (vid : Nat) (i : Nat) : Option Nat :=
  match fields with
  | [] => none
  | f :: rest => if f.id = vid then some i else enumFindIdxGo rest vid (i + 1)

/-- decodeEnumInto's variant lookup: first field whose ID matches. -/
def enumFindIdx (fields : List Field) (vid : Nat) : Option Nat :=
  enumFindIdxGo fields vid 0

/-- decoder.go `decodeEnumInto` (after the 0x12 type byte): length ≥ 1,
variant byte, decode the inner TLV into the (pointer) slot, and fail with
the enum-length-mismatch error when payload bytes remain. -/
def decodeEnumInto (dst : GoStruct) (l : List Nat) : Except Err (GoStruct × List Nat) :=
  match ReadLen l with
  | .error e => .error e
  | .ok (n, _, r1) =>
    if n < 1 then .error .errTypeMismatch
    else
      match ReadFull n r1 with
      | .error e => .error e
      | .ok (buf, r2) =>
        match buf with
        | [] => .error .errTypeMismatch -- unreachable: n ≥ 1 bytes were read
        | vid :: payload =>
          match enumFindIdx dst.fields vid with
          | none => .error .errTypeMismatch -- "unknown enum variant"
          | some idx =>
            match dst.fields[idx]? with
            | none => .error .errTypeMismatch -- unreachable: idx from findIdx?
            | some f =>
              if ¬ f.val.isPtr then .error .errTypeMismatch -- "enum field must be pointer"
              else
                match decodePrimInto f.ty payload with
                | .error e => .error e
                | .ok (v, remaining) =>
                  if remaining ≠ [] then .error .errEnumLengthMismatch
                  else .ok (⟨dst.fields.set idx { f with val := .ptr (some v) }⟩, r2)

/-- Decoder.Decode on a struct target: peek the type byte and dispatch to
the struct or enum path. -/
def Decode (dst : GoStruct) (l : List Nat) : Except Err (GoStruct × List Nat) :=
  match ReadType l with
  | .error e => .error e
  | .ok (t, r1) =>
    if t = 0x11 then decodeStructInto dst r1
    else if t = 0x12 then decodeEnumInto dst r1
    else .error .errTypeMismatch

/-- marshal.go `Unmarshal`: one-shot decode into a target value. -/
def Unmarshal (data : List Nat) (dst : GoStruct) : Except Err GoStruct :=
  match Decode dst data with
  | .error e => .error e
  | .ok (out, _) => .ok out

/-- A binding the emission loop does not skip: not an absent optional and
not an omitempty zero. -/
def fieldEmitted (f : Field) : Bool :=
  !(f.optional && f.val.isPtr && !f.val.ptrPresent) &&
    !(f.omitempty && isZeroValue f.ty f.val)

/-! ### Splitting lemmas: each reader consumes a prefix and its behaviour
is independent of what follows. -/

/-- `ReadLen` success splits the input into consumed bytes and the rest;
replaying the consumed bytes before any other tail reads the same value. -/
theorem ReadLen_split {l : List Nat} {n used : Nat} {r : List Nat}
    (h : ReadLen l = .ok (n, used, r)) :
    ∃ c, l = c ++ r ∧ c.length = used ∧
      ∀ tail2, ReadLen (c ++ tail2) = .ok (n, used, tail2) := by
  unfold ReadLen at h
  split at h
  · exact absurd h (by simp)
  · rename_i b0 rest
    split at h
    · rename_i heven
      simp only [Except.ok.injEq, Prod.mk.injEq] at h
      obtain ⟨h1, h2, h3⟩ := h
      subst h1; subst h2; subst h3
      refine ⟨[b0], rfl, rfl, fun tail2 => ?_⟩
      unfold ReadLen
      simp [heven]
    · rename_i hodd
      split at h
      · rename_i b1 b2 b3 rest2
        dsimp only at h
        split at h
        · exact absurd h (by simp)
        · rename_i hle
          simp only [Except.ok.injEq, Prod.mk.injEq] at h
          obtain ⟨h1, h2, h3⟩ := h
          subst h1; subst h2; subst h3
          refine ⟨[b0, b1, b2, b3], rfl, rfl, fun tail2 => ?_⟩
          unfold ReadLen
          simp only [List.cons_append, List.nil_append]
          rw [if_neg hodd]
          rw [if_neg hle]
      · exact absurd h (by simp)

/-- `ReadFull` success splits the input. -/
theorem ReadFull_split {k : Nat} {l body r : List Nat}
    (h : ReadFull k l = .ok (body, r)) :
    l = body ++ r ∧ body.length = k ∧
      ∀ tail2, ReadFull k (body ++ tail2) = .ok (body, tail2) := by
  unfold ReadFull at h
  split at h
  · exact absurd h (by simp)
  · rename_i hlen
    simp only [Except.ok.injEq, Prod.mk.injEq] at h
    obtain ⟨h1, h2⟩ := h
    subst h1; subst h2
    have hk : (l.take k).length = k := by
      rw [List.length_take]
      omega
    exact ⟨(List.take_append_drop k l).symm, hk, fun tail2 => ReadFull_exact hk tail2⟩

/-- `readTLVBytes` success splits the input: the consumed prefix replays
identically before any tail. -/
theorem readTLVBytes_split {l out r : List Nat}
    (h : readTLVBytes l = .ok (out, r)) :
    ∃ c, l = c ++ r ∧ 1 ≤ c.length ∧
      ∀ tail2, readTLVBytes (c ++ tail2) = .ok (out, tail2) := by
  unfold readTLVBytes at h
  split at h
  · exact absurd h (by simp)
  · rename_i t r1 hT
    have hTv : t &&& 0x80 = 0 ∧ l = t :: r1 := by
      unfold ReadType at hT
      split at hT
      · exact absurd hT (by simp)
      · rename_i b rest
        split at hT
        · exact absurd hT (by simp)
        · rename_i hb
          simp only [Except.ok.injEq, Prod.mk.injEq] at hT
          obtain ⟨h1, h2⟩ := hT
          subst h1; subst h2
          exact ⟨by simpa using hb, rfl⟩
    obtain ⟨ht0, hl⟩ := hTv
    subst hl
    split at h
    · rename_i n hF
      split at h
      · rename_i hn0
        simp only [Except.ok.injEq, Prod.mk.injEq] at h
        obtain ⟨h1, h2⟩ := h
        subst h1; subst h2
        refine ⟨[t], rfl, by simp, fun tail2 => ?_⟩
        unfold readTLVBytes
        rw [show [t] ++ tail2 = t :: tail2 from rfl, ReadType_ok ht0]
        dsimp only
        rw [hF]
        simp [hn0]
      · rename_i hn0
        split at h
        · exact absurd h (by simp)
        · rename_i content r2 hRF
          simp only [Except.ok.injEq, Prod.mk.injEq] at h
          obtain ⟨h1, h2⟩ := h
          subst h1; subst h2
          obtain ⟨hsplit, hclen, _⟩ := ReadFull_split hRF
          refine ⟨t :: content, by rw [hsplit]; rfl, by simp, fun tail2 => ?_⟩
          unfold readTLVBytes
          rw [List.cons_append, ReadType_ok ht0]
          dsimp only
          rw [hF]
          simp only [hn0, if_false]
          rw [ReadFull_exact hclen tail2]
    · rename_i fst hF
      split at h
      · exact absurd h (by simp)
      · rename_i n used r2 hRL
        dsimp only at h
        split at h
        · exact absurd h (by simp)
        · rename_i content r3 hRF
          simp only [Except.ok.injEq, Prod.mk.injEq] at h
          obtain ⟨h1, h2⟩ := h
          subst h1; subst h2
          obtain ⟨lenC, hsplitL, hlenL, hreplayL⟩ := ReadLen_split hRL
          obtain ⟨hsplitF, hclen, _⟩ := ReadFull_split hRF
          refine ⟨t :: (lenC ++ content), ?_, by simp, fun tail2 => ?_⟩
          · rw [hsplitL, hsplitF]
            simp
          · unfold readTLVBytes
            rw [List.cons_append, ReadType_ok ht0]
            dsimp only
            rw [hF]
            rw [List.append_assoc, hreplayL (content ++ tail2)]
            dsimp only
            rw [ReadFull_exact hclen tail2]
def wellTypedField (f : Field) : Bool :=
  f.id < 0x80 &&
  (match f.val with
   | .direct v => !f.optional && v.hasTy f.ty && v.bytesOk
   | .ptr none => f.optional
   | .ptr (some v) => f.optional && v.hasTy f.ty && v.bytesOk)

/-- Concrete instantiation of the amended map-key statement: a
string-keyed map whose two serialized key payloads are both "a". -/
theorem c6_map_duplicate_keys_witness :
    WriteMapTLV 0x0E 0x0E
      [0x02, 0x61, 0x02, 0x78, 0x02, 0x61, 0x02, 0x79] =
      .ok (0x10 :: (EncodeLen (2 + 8) ++
        (0x0E :: 0x0E :: [0x02, 0x61, 0x02, 0x78, 0x02, 0x61, 0x02, 0x79]))) ∧
    ReadMapTLV (0x10 :: (EncodeLen (2 + 8) ++
        (0x0E :: 0x0E :: [0x02, 0x61, 0x02, 0x78, 0x02, 0x61, 0x02, 0x79]))) =
      .ok ((0x0E, 0x0E, [0x02, 0x61, 0x02, 0x78, 0x02, 0x61, 0x02, 0x79]), []) ∧
    textrepWriteMapPairs
      [([0x0E, 0x02, 0x61], [0x0E, 0x02, 0x78]), ([0x0E, 0x02, 0x61], [0x0E, 0x02, 0x79])]
      [] = .error .duplicateMapKey := by
  have h := c6_map_duplicate_keys 0x0E 0x0E
    [0x02, 0x61, 0x02, 0x78, 0x02, 0x61, 0x02, 0x79]
    [([0x0E, 0x02, 0x61], [0x0E, 0x02, 0x78]), ([0x0E, 0x02, 0x61], [0x0E, 0x02, 0x79])]
    (by decide) (by decide) (by decide) (by decide) (by decide)
  simpa using h

/-! ### Primitive round-trip and lookup lemmas -/

/-- Little-endian 32-bit reassembly inverts the byte split. -/
theorem le32_reassemble {n : Nat} (h : n < 2 ^ 32) : leU32 (u32le n) = n := by
  unfold u32le leU32
  dsimp only
  have h0 : n % 256 < 2 ^ 8 := by omega
  rw [lor_shiftLeft_eq_add _ 8 h0]
  have h1 : 2 ^ 8 * ((n >>> 8) % 256) + n % 256 < 2 ^ 16 := by
    have : (n >>> 8) % 256 < 256 := Nat.mod_lt _ (by norm_num)
    omega
  rw [lor_shiftLeft_eq_add _ 16 h1]
  have h2 : 2 ^ 16 * ((n >>> 16) % 256) + (2 ^ 8 * ((n >>> 8) % 256) + n % 256) < 2 ^ 24 := by
    have ha : (n >>> 16) % 256 < 256 := Nat.mod_lt _ (by norm_num)
    have hb : (n >>> 8) % 256 < 256 := Nat.mod_lt _ (by norm_num)
    omega
  rw [lor_shiftLeft_eq_add _ 24 h2]
  have e8 : n >>> 8 = n / 2 ^ 8 := Nat.shiftRight_eq_div_pow n 8
  have e16 : n >>> 16 = n / 2 ^ 16 := Nat.shiftRight_eq_div_pow n 16
  have e24 : n >>> 24 = n / 2 ^ 24 := Nat.shiftRight_eq_div_pow n 24
  rw [e8, e16, e24]
  have : 2 ^ 24 * (n / 2 ^ 24 % 256) +
      (2 ^ 16 * (n / 2 ^ 16 % 256) + (2 ^ 8 * (n / 2 ^ 8 % 256) + n % 256)) = n := by
    omega
  rw [this]
  omega

/-- `WriteLen` succeeds exactly on lengths in range, emitting the
canonical encoding. -/
theorem WriteLen_ok {n : Nat} {out : List Nat} (h : WriteLen n = .ok out) :
    n ≤ MaxLen ∧ out = EncodeLen n := by
  unfold WriteLen at h
  split at h
  · exact absurd h (by simp)
  · rename_i hs
    simp only [Except.ok.injEq] at h
    refine ⟨?_, h.symm⟩
    unfold SizeOfLen at hs
    by_cases hmax : n > MaxLen
    · simp [hmax] at hs
    · omega

/-- Decoding an encoded primitive of the right type restores the value
and leaves the tail untouched. -/
theorem decodePrim_encodePrim {v : PrimVal} {ty : PrimTy}
    (hty : v.hasTy ty = true) (hok : v.bytesOk = true)
    {out : List Nat} (henc : encodePrim v = .ok out) (tail : List Nat) :
    decodePrimInto ty (out ++ tail) = .ok (v, tail) := by
  cases v with
  | vBool b =>
    cases ty <;> simp [PrimVal.hasTy] at hty
    simp only [encodePrim, Except.ok.injEq] at henc
    subst henc
    unfold WriteBoolTLV decodePrimInto ReadBoolTLV
    cases b
    · rw [show ([0x01, if false then 0xFF else 0x00] ++ tail) =
        (0x01 : Nat) :: (0x00 :: tail) from rfl, ReadType_ok (by decide)]
      simp
    · rw [show ([0x01, if true then 0xFF else 0x00] ++ tail) =
        (0x01 : Nat) :: (0xFF :: tail) from rfl, ReadType_ok (by decide)]
      simp
  | vU32 n =>
    cases ty <;> simp [PrimVal.hasTy] at hty
    simp only [encodePrim, Except.ok.injEq] at henc
    subst henc
    unfold WriteU32TLV decodePrimInto ReadU32TLV
    rw [List.cons_append, ReadType_ok (by decide)]
    dsimp only
    have h4 : (u32le n).length = 4 := rfl
    rw [ReadFull_exact h4 tail]
    simp only [PrimVal.bytesOk, decide_eq_true_eq] at hok
    simp [le32_reassemble hok]
  | vStr s =>
    cases ty <;> simp [PrimVal.hasTy] at hty
    simp only [encodePrim] at henc
    unfold WriteStringTLV at henc
    split at henc
    · exact absurd henc (by simp)
    · rename_i hval
      rw [not_not] at hval
      split at henc
      · exact absurd henc (by simp)
      · rename_i lenBytes hWL
        simp only [Except.ok.injEq] at henc
        obtain ⟨hmax, hlb⟩ := WriteLen_ok hWL
        subst hlb
        subst henc
        unfold decodePrimInto ReadStringTLV
        rw [List.cons_append, ReadType_ok (by decide)]
        dsimp only
        rw [List.append_assoc, ReadLen_encode hmax (s ++ tail)]
        dsimp only
        by_cases hs0 : s.length = 0
        · have : s = [] := List.eq_nil_of_length_eq_zero hs0
          subst this
          simp
        · simp only [hs0, if_false]
          rw [ReadFull_exact rfl tail]
          simp [hval]

/-- The TLV bytes of an encoded primitive are consumed exactly by the
skip path. -/
theorem readTLV_of_prim {v : PrimVal} {out : List Nat}
    (henc : encodePrim v = .ok out) (rest : List Nat) :
    readTLVBytes (out ++ rest) = .ok (out, rest) := by
  cases v with
  | vBool b =>
    simp only [encodePrim, Except.ok.injEq] at henc
    subst henc
    exact readTLVBytes_fixed 0x01 1 [if b then 0xFF else 0x00] (by decide) (by decide) rfl rest
  | vU32 n =>
    simp only [encodePrim, Except.ok.injEq] at henc
    subst henc
    exact readTLVBytes_fixed 0x04 4 (u32le n) (by decide) (by decide) rfl rest
  | vStr s =>
    simp only [encodePrim] at henc
    unfold WriteStringTLV at henc
    split at henc
    · exact absurd henc (by simp)
    · split at henc
      · exact absurd henc (by simp)
      · rename_i lenBytes hWL
        simp only [Except.ok.injEq] at henc
        obtain ⟨hmax, hlb⟩ := WriteLen_ok hWL
        subst hlb
        subst henc
        rw [List.cons_append, List.append_assoc]
        exact readTLVBytes_var 0x0E s.length s (by decide) (by decide) hmax rfl rest

/-- `encodeGoVal` always reduces to `encodePrim` on some primitive. -/
theorem encodeGoVal_eq (ty : PrimTy) (g : GoVal) :
    ∃ v, encodeGoVal ty g = encodePrim v ∧
      (g = .direct v ∨ g = .ptr (some v) ∨ (g = .ptr none ∧ v = zeroOf ty)) := by
  cases g with
  | direct v => exact ⟨v, rfl, Or.inl rfl⟩
  | ptr o =>
    cases o with
    | none => exact ⟨zeroOf ty, rfl, Or.inr (Or.inr ⟨rfl, rfl⟩)⟩
    | some v => exact ⟨v, rfl, Or.inr (Or.inl rfl)⟩

/-- One step of the decode field loop with a valid ID and a complete
TLV available. -/
theorem decodeFields_step {dst : GoStruct} {b : Nat} {rest tlv rest2 : List Nat} {prev : Int}
    (hb : b &&& 0x80 = 0) (hp : prev < (b : Int))
    (hTLV : readTLVBytes rest = .ok (tlv, rest2)) :
    decodeFields dst (b :: rest) prev =
      (match idToIndex dst.fields b with
       | none => decodeFields dst rest2 (b : Int)
       | some idx =>
         match decodeFieldAt dst idx tlv with
         | .error e => .error e
         | .ok dst2 => decodeFields dst2 rest2 (b : Int)) := by
  have hsuf := readTLVBytes_suffix hTLV
  show decodeFieldsGo (rest.length + 1) dst (b :: rest) prev = _
  unfold decodeFieldsGo
  rw [if_neg (by simp [hb]), if_neg (not_le.mpr hp), hTLV]
  dsimp only
  cases hIdx : idToIndex dst.fields b with
  | none =>
    exact decodeFieldsGo_fuel rest.length rest2.length dst rest2 (b : Int) (by omega) le_rfl
  | some idx =>
    dsimp only
    cases hD : decodeFieldAt dst idx tlv with
    | error e => rfl
    | ok dst2 =>
      exact decodeFieldsGo_fuel rest.length rest2.length dst2 rest2 (b : Int) (by omega) le_rfl

/-- `idToIndexGo` returns its accumulator when no field matches. -/
theorem idToIndexGo_none (flds : List Field) (id : Nat) :
    ∀ (i : Nat) (acc : Option Nat), (∀ g ∈ flds, g.id ≠ id) →
    idToIndexGo flds id i acc = acc := by
  induction flds with
  | nil => intro i acc _; rfl
  | cons a rest ih =>
    intro i acc h
    unfold idToIndexGo
    rw [if_neg (h a (List.mem_cons_self _ _))]
    exact ih (i + 1) acc (fun g hg => h g (List.mem_cons_of_mem _ hg))

/-- `idToIndexGo` finds the unique matching position. -/
theorem idToIndexGo_unique (flds : List Field) :
    ∀ (j : Nat) (g : Field) (id i : Nat) (acc : Option Nat),
    flds[j]? = some g → g.id = id →
    (∀ (k : Nat) (g2 : Field), k ≠ j → flds[k]? = some g2 → g2.id ≠ id) →
    idToIndexGo flds id i acc = some (i + j) := by
  induction flds with
  | nil => intro j g id i acc hj _ _; simp at hj
  | cons a rest ih =>
    intro j g id i acc hj hid huniq
    cases j with
    | zero =>
      simp only [List.getElem?_cons_zero, Option.some.injEq] at hj
      subst hj
      unfold idToIndexGo
      rw [if_pos hid]
      have hnone : ∀ g2 ∈ rest, g2.id ≠ id := by
        intro g2 hg2
        obtain ⟨k, hk⟩ := List.getElem?_of_mem hg2
        exact huniq (k + 1) g2 (by omega) (by simpa using hk)
      rw [idToIndexGo_none rest id (i + 1) (some i) hnone]
      rfl
    | succ j2 =>
      have ha : a.id ≠ id := huniq 0 a (by omega) (by simp)
      unfold idToIndexGo
      rw [if_neg ha]
      have := ih j2 g id (i + 1) acc (by simpa using hj) hid ?_
      · rw [this]
        congr 1
        omega
      · intro k g2 hk hg2
        exact huniq (k + 1) g2 (by omega) (by simpa using hg2)

/-- The zero TLV of each primitive type, as the writers produce it. -/
def zeroTLV : PrimTy → List Nat
  | .tBool => [0x01, 0x00]
  | .tU32 => [0x04, 0x00, 0x00, 0x00, 0x00]
  | .tStr => [0x0E, 0x00]

/-- Encoding the zero value of a primitive type always succeeds with its
zero TLV. -/
theorem encodePrim_zero (ty : PrimTy) : encodePrim (zeroOf ty) = .ok (zeroTLV ty) := by
  cases ty <;> rfl

/-- C10 counterexample: for a nil pointer under a binding that is not
optional but is omitempty, the encoder omits the field entirely (the
struct body is empty) instead of encoding the pointee's zero value. -/
theorem c10_nil_ptr_cex :
    Marshal ⟨[⟨0, false, true, .tU32, .ptr none⟩]⟩ = .ok [0x11, 0x00] := by decide

/-- C10 (amended): a nil pointer under a binding that is neither optional
nor omitempty is not skipped and does not fail: `encodeValue` encodes the
zero value of the pointee type, so the emitted field is
`[id][zero TLV of the pointee]`; in particular a nil pointer to uint32 in
a one-field struct marshals to the u32 TLV `04 00 00 00 00`. -/
theorem c10_nil_ptr_zero (f : Field) (fs : List Field)
    (hopt : f.optional = false) (hoe : f.omitempty = false)
    (hval : f.val = .ptr none) (hid : f.id &&& 0x80 = 0) :
    encodeGoVal f.ty f.val = encodePrim (zeroOf f.ty) ∧
    emitFields (f :: fs) =
      (match emitFields fs with
       | .error e => .error e
       | .ok out => .ok (f.id :: (zeroTLV f.ty ++ out))) ∧
    Marshal ⟨[⟨0, false, false, .tU32, .ptr none⟩]⟩ =
      .ok [0x11, 0x0C, 0x00, 0x04, 0x00, 0x00, 0x00, 0x00] := by
  refine ⟨by rw [hval]; rfl, ?_, by decide⟩
  have hskip1 : (f.optional && f.val.isPtr && !f.val.ptrPresent) = false := by
    rw [hopt]; simp
  have hskip2 : (f.omitempty && isZeroValue f.ty f.val) = false := by
    rw [hoe]; simp
  have hstep : emitFields (f :: fs) =
      (match encodePrim (zeroOf f.ty) with
       | Except.error e => Except.error e
       | Except.ok v =>
         match emitFields fs with
         | Except.error e => Except.error e
         | Except.ok out => Except.ok (f.id :: (v ++ out))) := by
    simp only [emitFields]
    rw [hskip1, hskip2]
    simp only [Bool.false_eq_true, if_false]
    rw [if_neg (by simp [hid]), hval]
    rfl
  rw [hstep, encodePrim_zero f.ty]

/-- Concrete instantiation of the amended nil-pointer statement at a
string-typed binding with ID 3. -/
theorem c10_nil_ptr_zero_witness :
    encodeGoVal PrimTy.tStr (GoVal.ptr none) = encodePrim (zeroOf PrimTy.tStr) ∧
    emitFields [⟨3, false, false, .tStr, .ptr none⟩] =
      (match emitFields [] with
       | .error e => .error e
       | .ok out => .ok (3 :: (zeroTLV PrimTy.tStr ++ out))) ∧
    Marshal ⟨[⟨0, false, false, .tU32, .ptr none⟩]⟩ =
      .ok [0x11, 0x0C, 0x00, 0x04, 0x00, 0x00, 0x00, 0x00] :=
  c10_nil_ptr_zero ⟨3, false, false, .tStr, .ptr none⟩ []
    rfl rfl rfl (by decide)

/-! ### Textrep struct-field emission (part of the textrep EncodeBytes
closure) for the duplicate-field-ID checks. -/

/-- One textrep struct field as the encode closure sees it: the parsed
field ID (a Go `int`), the `none` omission marker, and the already
encoded value TLV (`encodeValueTLV(f.val)`). -/
structure TField where
  id : Int
  omitted : Bool
  tlv : List Nat
  deriving DecidableEq, Repr

/-- textrep EncodeBytes field loop: skip omitted entries, reject a field
ID already seen, reject IDs outside 0..127, else emit `[id][value TLV]`. -/
def textrepFieldsLoop (fields : List TField) (seen : List Int) : Except Err (List Nat) :=
  match fields with
  | [] => .ok []
  | f :: rest =>
    if f.omitted then textrepFieldsLoop rest seen
    else if f.id ∈ seen then .error .duplicateFieldId
    else if f.id < 0 ∨ 0x80 ≤ f.id then .error .fieldIdOutOfRange
    else
      match textrepFieldsLoop rest (f.id :: seen) with
      | .error e => .error e
      | .ok out => .ok (f.id.toNat :: (f.tlv ++ out))

/-- textrep EncodeBytes sorts fields by ID before the loop
(`sort.Slice` on ids). -/
def sortTFields (l : List TField) : List TField :=
  List.insertionSort (fun a b => a.id ≤ b.id) l

/-- The textrep struct-field emission: sorted loop from an empty seen
set. -/
def textrepEncodeFields (fields : List TField) : Except Err (List Nat) :=
  textrepFieldsLoop (sortTFields fields) []

/-- The textrep field loop fails with the duplicate-field error whenever
the non-omitted field IDs repeat (or revisit the seen set), provided all
IDs are in range. -/
theorem textrepFieldsLoop_dup (fields : List TField) (seen : List Int)
    (hrange : ∀ f ∈ fields, 0 ≤ f.id ∧ f.id < 0x80)
    (h : ¬ ((fields.filter (fun f => !f.omitted)).map (fun f => f.id)).Nodup ∨
      ∃ f ∈ fields, !f.omitted ∧ f.id ∈ seen) :
    textrepFieldsLoop fields seen = .error .duplicateFieldId := by
  induction fields generalizing seen with
  | nil =>
    rcases h with h | ⟨f, hf, _⟩
    · exact absurd (by simp) h
    · exact absurd hf (List.not_mem_nil f)
  | cons hd tl ih =>
    unfold textrepFieldsLoop
    by_cases hom : hd.omitted
    · rw [if_pos hom]
      apply ih
      · intro f hf
        exact hrange f (List.mem_cons_of_mem _ hf)
      · rcases h with h | ⟨f, hf, hfo, hfseen⟩
        · rw [List.filter_cons_of_neg (by simp [hom])] at h
          exact Or.inl h
        · rcases List.mem_cons.mp hf with rfl | hf2
          · rw [hom] at hfo
            simp at hfo
          · exact Or.inr ⟨f, hf2, hfo, hfseen⟩
    · rw [if_neg hom]
      by_cases hseen : hd.id ∈ seen
      · rw [if_pos hseen]
      · rw [if_neg hseen]
        have hr := hrange hd (List.mem_cons_self _ _)
        rw [if_neg (by omega)]
        have hrec : textrepFieldsLoop tl (hd.id :: seen) = .error .duplicateFieldId := by
          apply ih
          · intro f hf
            exact hrange f (List.mem_cons_of_mem _ hf)
          · rcases h with h | ⟨f, hf, hfo, hfseen⟩
            · rw [List.filter_cons_of_pos (by simp [hom])] at h
              rw [List.map_cons, List.nodup_cons] at h
              push_neg at h
              by_cases hmem : hd.id ∈ (tl.filter (fun f => !f.omitted)).map (fun f => f.id)
              · obtain ⟨f, hfmem, hfe⟩ := List.mem_map.mp hmem
                have hfl := List.mem_filter.mp hfmem
                exact Or.inr ⟨f, hfl.1, hfl.2, by rw [hfe]; exact List.mem_cons_self _ _⟩
              · exact Or.inl (fun hnd => (h hmem hnd).elim)
            · rcases List.mem_cons.mp hf with rfl | hf2
              · exact absurd hfseen hseen
              · exact Or.inr ⟨f, hf2, hfo, List.mem_cons_of_mem _ hfseen⟩
        rw [hrec]

/-- Sorting preserves the multiset of non-omitted IDs, so a duplicate
survives into the loop. -/
theorem textrepEncodeFields_dup (fields : List TField)
    (hrange : ∀ f ∈ fields, 0 ≤ f.id ∧ f.id < 0x80)
    (hdup : ¬ ((fields.filter (fun f => !f.omitted)).map (fun f => f.id)).Nodup) :
    textrepEncodeFields fields = .error .duplicateFieldId := by
  unfold textrepEncodeFields
  apply textrepFieldsLoop_dup
  · intro f hf
    exact hrange f ((List.perm_insertionSort _ fields).mem_iff.mp hf)
  · left
    intro hnd
    apply hdup
    have hperm : List.Perm (sortTFields fields) fields := List.perm_insertionSort _ fields
    have hp2 : List.Perm (((sortTFields fields).filter (fun f => !f.omitted)).map (fun f => f.id))
        ((fields.filter (fun f => !f.omitted)).map (fun f => f.id)) :=
      (hperm.filter _).map _
    exact hp2.nodup_iff.mp hnd

/-- One emission step for a binding that is not skipped. -/
theorem emitFields_cons_emit {f : Field} (fs : List Field)
    (hskip1 : (f.optional && f.val.isPtr && !f.val.ptrPresent) = false)
    (hskip2 : (f.omitempty && isZeroValue f.ty f.val) = false)
    (hid : f.id &&& 0x80 = 0) {tlvf : List Nat}
    (henc : encodeGoVal f.ty f.val = .ok tlvf) :
    emitFields (f :: fs) =
      (match emitFields fs with
       | .error e => .error e
       | .ok out => .ok (f.id :: (tlvf ++ out))) := by
  simp only [emitFields]
  rw [hskip1, hskip2]
  simp only [Bool.false_eq_true, if_false]
  rw [if_neg (by simp [hid]), henc]

/-- One emission step for a skipped binding. -/
theorem emitFields_cons_skip {f : Field} (fs : List Field)
    (h : (f.optional && f.val.isPtr && !f.val.ptrPresent) = true ∨
      (f.omitempty && isZeroValue f.ty f.val) = true) :
    emitFields (f :: fs) = emitFields fs := by
  simp only [emitFields]
  by_cases h1 : (f.optional && f.val.isPtr && !f.val.ptrPresent) = true
  · rw [if_pos h1]
  · rw [if_neg h1, if_pos (h.resolve_left h1)]

/-- C7 counterexample: two bindings with the same ID 3; the reflection
encoder silently succeeds, emitting field ID 3 twice on the wire, instead
of reporting a configuration error. -/
theorem c7_duplicate_field_ids_cex :
    Marshal ⟨[⟨3, false, false, .tU32, .direct (.vU32 1)⟩,
      ⟨3, false, false, .tU32, .direct (.vU32 2)⟩]⟩ =
      .ok [0x11, 0x18, 0x03, 0x04, 1, 0, 0, 0, 0x03, 0x04, 2, 0, 0, 0] := by decide

/-- C7 (amended): the reflection encoder performs no duplicate-field-ID
detection — for any binding duplicated in a (non-enum-like) struct it
succeeds and emits the field ID twice on the wire (which a decoder then
rejects as a FieldOrder violation); the duplicate-ID configuration error
is reported only by the textrep encoder. -/
theorem c7_duplicate_field_ids (f : Field) (tlvf : List Nat) (tfields : List TField)
    (hopt : f.optional = false) (hoe : f.omitempty = false)
    (hid : f.id &&& 0x80 = 0)
    (henc : encodeGoVal f.ty f.val = .ok tlvf)
    (hlen : 2 + 2 * tlvf.length ≤ MaxLen)
    (hrange : ∀ g ∈ tfields, 0 ≤ g.id ∧ g.id < 0x80)
    (hdup : ¬ ((tfields.filter (fun g => !g.omitted)).map (fun g => g.id)).Nodup) :
    Marshal ⟨[f, f]⟩ =
      .ok (0x11 :: (EncodeLen (2 + 2 * tlvf.length) ++
        (f.id :: (tlvf ++ (f.id :: (tlvf ++ [])))))) ∧
    textrepEncodeFields tfields = .error .duplicateFieldId := by
  refine ⟨?_, textrepEncodeFields_dup tfields hrange hdup⟩
  have hskip1 : (f.optional && f.val.isPtr && !f.val.ptrPresent) = false := by
    rw [hopt]; simp
  have hskip2 : (f.omitempty && isZeroValue f.ty f.val) = false := by
    rw [hoe]; simp
  have hemit1 : emitFields [f] = .ok (f.id :: (tlvf ++ [])) := by
    rw [emitFields_cons_emit [] hskip1 hskip2 hid henc]
    rfl
  have hemit2 : emitFields [f, f] = .ok (f.id :: (tlvf ++ (f.id :: (tlvf ++ [])))) := by
    rw [emitFields_cons_emit [f] hskip1 hskip2 hid henc, hemit1]
  have hsort : sortFields [f, f] = [f, f] := by
    unfold sortFields
    simp [List.insertionSort, List.orderedInsert]
  have hfilter : List.filter (fun g => g.optional) [f, f] = [] := by
    rw [List.filter_cons_of_neg (by simp [hopt]), List.filter_cons_of_neg (by simp [hopt])]
    rfl
  have hcontentlen : (f.id :: (tlvf ++ (f.id :: (tlvf ++ [])))).length =
      2 + 2 * tlvf.length := by
    simp
    omega
  show encodeStruct ⟨[f, f]⟩ = _
  unfold encodeStruct
  dsimp only
  rw [if_neg ?_]
  · rw [hsort, hemit2]
    dsimp only
    unfold WriteStructTLV WriteLen
    rw [hcontentlen]
    have hsz : ¬ SizeOfLen (2 + 2 * tlvf.length) < 0 := by
      unfold SizeOfLen
      rw [if_neg (Nat.not_lt.mpr hlen)]
      split <;> norm_num
    rw [if_neg hsz]
  · intro hcond
    rw [hfilter] at hcond
    simp at hcond

/-- Concrete instantiation of the amended duplicate-ID statement: a
duplicated u32 binding on the reflection side, and a duplicated textrep
field ID 5. -/
theorem c7_duplicate_field_ids_witness :
    Marshal ⟨[⟨1, false, false, .tU32, .direct (.vU32 7)⟩,
      ⟨1, false, false, .tU32, .direct (.vU32 7)⟩]⟩ =
      .ok (0x11 :: (EncodeLen (2 + 2 * 5) ++
        (1 :: ([0x04, 7, 0, 0, 0] ++ (1 :: ([0x04, 7, 0, 0, 0] ++ [])))))) ∧
    textrepEncodeFields [⟨5, false, [0x00]⟩, ⟨5, false, [0x01, 0xFF]⟩] =
      .error .duplicateFieldId :=
  c7_duplicate_field_ids ⟨1, false, false, .tU32, .direct (.vU32 7)⟩
    [0x04, 7, 0, 0, 0] [⟨5, false, [0x00]⟩, ⟨5, false, [0x01, 0xFF]⟩]
    rfl rfl (by decide) rfl (by decide) (by decide) (by decide)

/-- C4: in the schema layer's enum path, once the variant's inner TLV is
decoded into the bound slot, the decode succeeds exactly when zero bytes
of the declared enum length remain; any leftover bytes — e.g. one
trailing byte — yield the enum-length-mismatch error. -/
theorem c4_enum_length_mismatch (dst : GoStruct) (f : Field) (idx vid : Nat)
    (innerTLV extra : List Nat) (v : PrimVal)
    (hfind : enumFindIdx dst.fields vid = some idx)
    (hfld : dst.fields[idx]? = some f)
    (hptr : f.val.isPtr = true)
    (hdec : decodePrimInto f.ty (innerTLV ++ extra) = .ok (v, extra))
    (hlen : 1 + (innerTLV ++ extra).length ≤ MaxLen) :
    decodeEnumInto dst
      (EncodeLen (1 + (innerTLV ++ extra).length) ++ (vid :: (innerTLV ++ extra))) =
      (if extra = [] then
        .ok (⟨dst.fields.set idx { f with val := .ptr (some v) }⟩, [])
      else .error .errEnumLengthMismatch) := by
  unfold decodeEnumInto
  rw [ReadLen_encode hlen (vid :: (innerTLV ++ extra))]
  dsimp only
  rw [if_neg (by omega)]
  have hblen : (vid :: (innerTLV ++ extra)).length = 1 + (innerTLV ++ extra).length := by
    simp
    omega
  have hRF : ReadFull (1 + (innerTLV ++ extra).length) (vid :: (innerTLV ++ extra)) =
      .ok (vid :: (innerTLV ++ extra), []) := by
    have := ReadFull_exact hblen []
    simpa using this
  rw [hRF]
  dsimp only
  rw [hfind]
  dsimp only
  rw [hfld]
  dsimp only
  rw [if_neg (by simp [hptr])]
  rw [hdec]
  dsimp only
  by_cases he : extra = []
  · rw [if_neg (by simp [he]), if_pos he]
  · rw [if_pos he, if_neg he]

/-- Concrete instantiation of the enum-length behaviour on the spec's
wire examples: variant 0 carrying u32(42); the padded frame is rejected
with the enum-length-mismatch error and the exact frame decodes. -/
theorem c4_enum_length_mismatch_witness :
    decodeEnumInto ⟨[⟨0, true, false, .tU32, .ptr none⟩]⟩
      [0x0E, 0x00, 0x04, 0x2A, 0x00, 0x00, 0x00, 0xFF] =
      .error .errEnumLengthMismatch ∧
    Unmarshal [0x12, 0x0E, 0x00, 0x04, 0x2A, 0x00, 0x00, 0x00, 0xFF]
      ⟨[⟨0, true, false, .tU32, .ptr none⟩]⟩ = .error .errEnumLengthMismatch ∧
    Unmarshal [0x12, 0x0C, 0x00, 0x04, 0x2A, 0x00, 0x00, 0x00]
      ⟨[⟨0, true, false, .tU32, .ptr none⟩]⟩ =
      .ok ⟨[⟨0, true, false, .tU32, .ptr (some (.vU32 42))⟩]⟩ := by
  refine ⟨?_, by decide, by decide⟩
  have h := c4_enum_length_mismatch ⟨[⟨0, true, false, .tU32, .ptr none⟩]⟩
    ⟨0, true, false, .tU32, .ptr none⟩ 0 0
    [0x04, 0x2A, 0x00, 0x00, 0x00] [0xFF] (.vU32 42)
    (by decide) (by decide) (by decide) (by decide) (by decide)
  simpa using h

/-! ### The struct-payload wire grammar, induced by the decoder's own
TLV consumption (`readTLVBytes`): a payload parses into a list of
(field id, field TLV bytes) pairs.  Used to state which field IDs a wire
payload carries. -/

/-- Parse a struct payload into (id, consumed TLV bytes) pairs; fuel as
in `decodeFieldsGo`. -/
def structWirePairsGo (fuel : Nat) (buf : List Nat) : Option (List (Nat × List Nat)) :=
  match buf with
  | [] => some []
  | b :: rest =>
    if b &&& 0x80 ≠ 0 then none
    else
      match readTLVBytes rest with
      | .error _ => none
      | .ok (_, rest2) =>
        match fuel with
        | 0 => none -- unreachable with fuel ≥ buf.length
        | fuel2 + 1 =>
          match structWirePairsGo fuel2 rest2 with
          | none => none
          | some ps => some ((b, rest.take (rest.length - rest2.length)) :: ps)

/-- Parse a struct payload into its (field id, TLV bytes) pairs. -/
def structWirePairs (buf : List Nat) : Option (List (Nat × List Nat)) :=
  structWirePairsGo buf.length buf

/-- The field IDs a struct payload carries on the wire. -/
def structWireIds (buf : List Nat) : Option (List Nat) :=
  (structWirePairs buf).map (fun ps => ps.map (fun p => p.1))

/-- Rebuild payload bytes from parsed pairs. -/
def pairsBytes : List (Nat × List Nat) → List Nat
  | [] => []
  | p :: ps => p.1 :: (p.2 ++ pairsBytes ps)

/-- Parsing is fuel-independent in the reachable region. -/
theorem structWirePairsGo_fuel (fuel1 : Nat) :
    ∀ (fuel2 : Nat) (buf : List Nat), buf.length ≤ fuel1 → buf.length ≤ fuel2 →
    structWirePairsGo fuel1 buf = structWirePairsGo fuel2 buf := by
  induction fuel1 with
  | zero =>
    intro fuel2 buf h1 _
    have : buf = [] := List.eq_nil_of_length_eq_zero (Nat.le_zero.mp h1)
    subst this
    cases fuel2 <;> rfl
  | succ f1 ih =>
    intro fuel2 buf h1 h2
    match buf with
    | [] => cases fuel2 <;> rfl
    | b :: rest =>
      have hf2 : ∃ f2, fuel2 = f2 + 1 := by
        cases fuel2
        · simp at h2
        · exact ⟨_, rfl⟩
      obtain ⟨f2, rfl⟩ := hf2
      unfold structWirePairsGo
      by_cases hb : b &&& 0x80 ≠ 0
      · simp [hb]
      · simp only [hb, if_false]
        cases hTLV : readTLVBytes rest with
        | error e => rfl
        | ok pr =>
          obtain ⟨tlv, rest2⟩ := pr
          dsimp only
          have hlen := readTLVBytes_suffix hTLV
          simp only [List.length_cons] at h1 h2
          rw [ih f2 rest2 (by omega) (by omega)]

/-- One step of the payload parse with a valid ID and a complete TLV. -/
theorem structWirePairs_step {b : Nat} {rest tlv rest2 : List Nat}
    (hb : b &&& 0x80 = 0) (hTLV : readTLVBytes rest = .ok (tlv, rest2)) :
    structWirePairs (b :: rest) =
      (match structWirePairs rest2 with
       | none => none
       | some ps => some ((b, rest.take (rest.length - rest2.length)) :: ps)) := by
  have hsuf := readTLVBytes_suffix hTLV
  show structWirePairsGo (rest.length + 1) (b :: rest) = _
  unfold structWirePairsGo
  rw [if_neg (by simp [hb]), hTLV]
  dsimp only
  rw [structWirePairsGo_fuel rest.length rest2.length rest2 (by omega) le_rfl]
  rfl

/-- Parsed pairs concatenate back to the payload. -/
theorem structWirePairs_bytes :
    ∀ (N : Nat) (buf : List Nat), buf.length ≤ N →
    ∀ ps, structWirePairs buf = some ps → pairsBytes ps = buf := by
  intro N
  induction N with
  | zero =>
    intro buf h1 ps hp
    have : buf = [] := List.eq_nil_of_length_eq_zero (Nat.le_zero.mp h1)
    subst this
    simp only [structWirePairs, structWirePairsGo, Option.some.injEq] at hp
    subst hp
    rfl
  | succ n ih =>
    intro buf h1 ps hp
    match buf with
    | [] =>
      simp only [structWirePairs, structWirePairsGo, Option.some.injEq] at hp
      subst hp
      rfl
    | b :: rest =>
      by_cases hb : b &&& 0x80 ≠ 0
      · rw [show structWirePairs (b :: rest) =
          structWirePairsGo (rest.length + 1) (b :: rest) from rfl] at hp
        unfold structWirePairsGo at hp
        rw [if_pos hb] at hp
        exact absurd hp (by simp)
      · rw [not_not] at hb
        cases hTLV : readTLVBytes rest with
        | error e =>
          rw [show structWirePairs (b :: rest) =
            structWirePairsGo (rest.length + 1) (b :: rest) from rfl] at hp
          unfold structWirePairsGo at hp
          rw [if_neg (by simp [hb]), hTLV] at hp
          exact absurd hp (by simp)
        | ok pr =>
          obtain ⟨tlv, rest2⟩ := pr
          rw [structWirePairs_step hb hTLV] at hp
          cases hps2 : structWirePairs rest2 with
          | none => rw [hps2] at hp; exact absurd hp (by simp)
          | some ps2 =>
            rw [hps2] at hp
            simp only [Option.some.injEq] at hp
            subst hp
            have hsuf := readTLVBytes_suffix hTLV
            simp only [List.length_cons] at h1
            have hrec := ih rest2 (by omega) ps2 hps2
            obtain ⟨c, hcsplit, _, _⟩ := readTLVBytes_split hTLV
            have hc : rest.take (rest.length - rest2.length) = c := by
              rw [hcsplit]
              have : (c ++ rest2).length - rest2.length = c.length := by
                simp
              rw [this, List.take_left]
            unfold pairsBytes
            rw [hc, hrec, ← hcsplit]

/-- `idToIndexGo` depends only on the field IDs. -/
theorem idToIndexGo_map :
    ∀ (l1 l2 : List Field), l1.map (fun f => f.id) = l2.map (fun f => f.id) →
    ∀ (id i : Nat) (acc : Option Nat), idToIndexGo l1 id i acc = idToIndexGo l2 id i acc := by
  intro l1
  induction l1 with
  | nil =>
    intro l2 h id i acc
    have : l2 = [] := by
      cases l2
      · rfl
      · simp at h
    subst this
    rfl
  | cons a r1 ih =>
    intro l2 h id i acc
    match l2 with
    | [] => simp at h
    | b :: r2 =>
      simp only [List.map_cons, List.cons.injEq] at h
      unfold idToIndexGo
      rw [h.1, ih r2 h.2]

/-- Setting a field to one with the same ID leaves the ID map unchanged. -/
theorem set_id_map {flds : List Field} {idx : Nat} {g g2 : Field}
    (hg : flds[idx]? = some g) (hid : g2.id = g.id) :
    (flds.set idx g2).map (fun f => f.id) = flds.map (fun f => f.id) := by
  apply List.ext_getElem?
  intro k
  by_cases hk : k = idx
  · subst hk
    have hlt : k < flds.length := by
      by_contra hge
      rw [List.getElem?_eq_none (by omega)] at hg
      exact absurd hg (by simp)
    rw [List.getElem?_map, List.getElem?_map, List.getElem?_set_self hlt, hg]
    simp [hid]
  · rw [List.getElem?_map, List.getElem?_map, List.getElem?_set_ne (by omega : idx ≠ k)]

/-- Whenever the decode field loop succeeds, the payload parses and the
field IDs on the wire form a strictly increasing chain above `prev`. -/
theorem decodeFields_parses :
    ∀ (N : Nat) (buf : List Nat), buf.length ≤ N →
    ∀ (dst out : GoStruct) (prev : Int), decodeFields dst buf prev = .ok out →
    ∃ ps, structWirePairs buf = some ps ∧
      List.Chain (fun a b => a < b) prev (ps.map (fun p => ((p.1 : Nat) : Int))) := by
  intro N
  induction N with
  | zero =>
    intro buf h1 dst out prev _
    have : buf = [] := List.eq_nil_of_length_eq_zero (Nat.le_zero.mp h1)
    subst this
    exact ⟨[], rfl, List.Chain.nil⟩
  | succ n ih =>
    intro buf h1 dst out prev hdec
    match buf with
    | [] => exact ⟨[], rfl, List.Chain.nil⟩
    | b :: rest =>
      simp only [List.length_cons] at h1
      rw [show decodeFields dst (b :: rest) prev =
        decodeFieldsGo (rest.length + 1) dst (b :: rest) prev from rfl] at hdec
      unfold decodeFieldsGo at hdec
      by_cases hb : b &&& 0x80 ≠ 0
      · rw [if_pos hb] at hdec
        exact absurd hdec (by simp)
      · rw [if_neg hb] at hdec
        rw [not_not] at hb
        by_cases hp : (b : Int) ≤ prev
        · rw [if_pos hp] at hdec
          exact absurd hdec (by simp)
        · rw [if_neg hp] at hdec
          cases hTLV : readTLVBytes rest with
          | error e =>
            rw [hTLV] at hdec
            exact absurd hdec (by simp)
          | ok pr =>
            obtain ⟨tlv, rest2⟩ := pr
            rw [hTLV] at hdec
            dsimp only at hdec
            have hsuf := readTLVBytes_suffix hTLV
            have hnext : ∀ dstX, decodeFieldsGo rest.length dstX rest2 (b : Int) = .ok out →
                decodeFields dstX rest2 (b : Int) = .ok out := by
              intro dstX hX
              rw [show decodeFields dstX rest2 (b : Int) =
                decodeFieldsGo rest2.length dstX rest2 (b : Int) from rfl]
              rw [decodeFieldsGo_fuel rest2.length rest.length dstX rest2 (b : Int) le_rfl (by omega)]
              exact hX
            have hfin : ∀ dstX, decodeFields dstX rest2 (b : Int) = .ok out →
                ∃ ps, structWirePairs (b :: rest) = some ps ∧
                  List.Chain (fun a c => a < c) prev (ps.map (fun p => ((p.1 : Nat) : Int))) := by
              intro dstX hX
              obtain ⟨ps2, hps2, hchain2⟩ := ih rest2 (by omega) dstX out (b : Int) hX
              refine ⟨(b, rest.take (rest.length - rest2.length)) :: ps2, ?_, ?_⟩
              · rw [structWirePairs_step hb hTLV, hps2]
              · exact List.Chain.cons (not_le.mp hp) hchain2
            cases hIdx : idToIndex dst.fields b with
            | none =>
              rw [hIdx] at hdec
              exact hfin dst (hnext dst hdec)
            | some idx =>
              rw [hIdx] at hdec
              dsimp only at hdec
              cases hD : decodeFieldAt dst idx tlv with
              | error e =>
                rw [hD] at hdec
                exact absurd hdec (by simp)
              | ok dst2 =>
                rw [hD] at hdec
                exact hfin dst2 (hnext dst2 hdec)

/-- The bytes the emission loop produces parse back into exactly the
emitted bindings' field IDs. -/
theorem emitFields_parses :
    ∀ (fs : List Field) (content : List Nat),
    (∀ f ∈ fs, f.id < 0x80) → emitFields fs = .ok content →
    structWireIds content =
      some ((fs.filter (fun f => fieldEmitted f)).map (fun f => f.id)) := by
  intro fs
  induction fs with
  | nil =>
    intro content _ hemit
    simp only [emitFields, Except.ok.injEq] at hemit
    subst hemit
    rfl
  | cons f rest ih =>
    intro content hids hemit
    by_cases hskip : (f.optional && f.val.isPtr && !f.val.ptrPresent) = true ∨
        (f.omitempty && isZeroValue f.ty f.val) = true
    · rw [emitFields_cons_skip rest hskip] at hemit
      have hres := ih content (fun g hg => hids g (List.mem_cons_of_mem _ hg)) hemit
      rw [List.filter_cons_of_neg ?_]
      · exact hres
      · unfold fieldEmitted
        rcases hskip with h | h
        · rw [h]; simp
        · rw [h]; simp
    · push_neg at hskip
      obtain ⟨hs1, hs2⟩ := hskip
      have hs1f : (f.optional && f.val.isPtr && !f.val.ptrPresent) = false := by
        simpa using hs1
      have hs2f : (f.omitempty && isZeroValue f.ty f.val) = false := by
        simpa using hs2
      have hid0 : f.id &&& 0x80 = 0 := land128_of_lt (hids f (List.mem_cons_self _ _))
      simp only [emitFields] at hemit
      rw [hs1f, hs2f] at hemit
      simp only [Bool.false_eq_true, if_false] at hemit
      rw [if_neg (by simp [hid0])] at hemit
      cases hE : encodeGoVal f.ty f.val with
      | error e =>
        rw [hE] at hemit
        exact absurd hemit (by simp)
      | ok tlvf =>
        rw [hE] at hemit
        dsimp only at hemit
        cases hR : emitFields rest with
        | error e =>
          rw [hR] at hemit
          exact absurd hemit (by simp)
        | ok out =>
          rw [hR] at hemit
          simp only [Except.ok.injEq] at hemit
          subst hemit
          obtain ⟨v0, hv0, _⟩ := encodeGoVal_eq f.ty f.val
          have hTLV : readTLVBytes (tlvf ++ out) = .ok (tlvf, out) :=
            readTLV_of_prim (hv0 ▸ hE) out
          have hrest := ih out (fun g hg => hids g (List.mem_cons_of_mem _ hg)) hR
          unfold structWireIds at hrest ⊢
          rw [structWirePairs_step hid0 hTLV]
          cases hps2 : structWirePairs out with
          | none => rw [hps2] at hrest; exact absurd hrest (by simp)
          | some ps2 =>
            rw [hps2] at hrest
            simp only [Option.map_some', Option.some.injEq] at hrest
            dsimp only
            simp only [Option.map_some', Option.some.injEq]
            rw [List.filter_cons_of_pos ?_]
            · rw [List.map_cons, List.map_cons, hrest]
            · unfold fieldEmitted
              rw [hs1f, hs2f]
              rfl

/-- C2 counterexample: a struct TLV whose single wire field ID list [0]
is strictly increasing, yet decode into a target that binds field 0 to
uint32 fails, because the field's wire type is String — so "decode
succeeds iff the field IDs are strictly increasing" is false as an iff. -/
theorem c2_field_ordering_cex :
    structWireIds [0x00, 0x0E, 0x02, 0x61] = some [0] ∧
    List.Pairwise (fun a b => a < b) [0] ∧
    Unmarshal [0x11, 0x08, 0x00, 0x0E, 0x02, 0x61]
      ⟨[⟨0, false, false, .tU32, .direct (.vU32 0)⟩]⟩ =
      .error .unexpectedTypeId := by
  refine ⟨by decide, ?_, by decide⟩
  simp

/-- C2 (amended): one direction of the ordering claim holds in each
description: (a) whenever a struct-payload decode succeeds, the wire
field IDs parse and are strictly increasing (the loop starts from
`prev = -1` and rejects any `field_id ≤ prev`); (b) the encoder, on a
descriptor whose bound field IDs are pairwise distinct, always emits
fields in strictly increasing ID order.  The converse of (a) is false:
well-ordered wires can still fail to decode (type mismatch). -/
theorem c2_field_ordering (dst out : GoStruct) (buf : List Nat)
    (fs : List Field) (content : List Nat)
    (hdec : decodeFields dst buf (-1) = .ok out)
    (hids : ∀ f ∈ fs, f.id < 0x80)
    (hdist : List.Pairwise (fun a b => a.id ≠ b.id) fs)
    (hemit : emitFields (sortFields fs) = .ok content) :
    (∃ ids, structWireIds buf = some ids ∧ ids.Pairwise (fun a b => a < b)) ∧
    (∃ ids, structWireIds content = some ids ∧ ids.Pairwise (fun a b => a < b)) := by
  constructor
  · obtain ⟨ps, hps, hchain⟩ := decodeFields_parses buf.length buf le_rfl dst out (-1) hdec
    refine ⟨ps.map (fun p => p.1), by rw [structWireIds, hps]; rfl, ?_⟩
    have hpw : List.Pairwise (fun a b => a < b)
        (ps.map (fun p => ((p.1 : Nat) : Int))) :=
      (List.chain_iff_pairwise.mp hchain).of_cons
    have h1 := List.pairwise_map.mp hpw
    exact List.pairwise_map.mpr (h1.imp (fun hab => by exact_mod_cast hab))
  · have hidsort : ∀ f ∈ sortFields fs, f.id < 0x80 := by
      intro f hf
      exact hids f ((List.perm_insertionSort _ fs).mem_iff.mp hf)
    have hres := emitFields_parses (sortFields fs) content hidsort hemit
    refine ⟨_, hres, ?_⟩
    haveI : IsTotal Field (fun a b => a.id ≤ b.id) := ⟨fun a b => Nat.le_total a.id b.id⟩
    haveI : IsTrans Field (fun a b => a.id ≤ b.id) :=
      ⟨fun _ _ _ hab hbc => le_trans hab hbc⟩
    have hsorted : List.Pairwise (fun a b : Field => a.id ≤ b.id) (sortFields fs) :=
      List.sorted_insertionSort _ fs
    have hdist2 : List.Pairwise (fun a b : Field => a.id ≠ b.id) (sortFields fs) :=
      ((List.perm_insertionSort _ fs).pairwise_iff
        (fun h => Ne.symm h)).mpr hdist
    have hlt : List.Pairwise (fun a b : Field => a.id < b.id) (sortFields fs) :=
      (hsorted.and hdist2).imp (fun h => by omega)
    have hsub : List.Pairwise (fun a b : Field => a.id < b.id)
        ((sortFields fs).filter (fun f => fieldEmitted f)) :=
      List.Pairwise.sublist (List.filter_sublist _) hlt
    exact List.pairwise_map.mpr hsub

/-- Concrete instantiation of the ordering statement: decoding the
two-field wire `00 04 0A 00 00 00 | 05 01 FF` succeeds, and encoding the
descriptor with IDs 5 and 0 emits them in increasing order. -/
theorem c2_field_ordering_witness :
    (∃ ids, structWireIds
        [0x00, 0x04, 0x0A, 0x00, 0x00, 0x00, 0x05, 0x01, 0xFF] = some ids ∧
      ids.Pairwise (fun a b => a < b)) ∧
    (∃ ids, structWireIds
        (match emitFields (sortFields
          [⟨5, false, false, .tBool, .direct (.vBool true)⟩,
           ⟨0, false, false, .tU32, .direct (.vU32 10)⟩]) with
         | Except.error _ => []
         | Except.ok content => content) = some ids ∧
      ids.Pairwise (fun a b => a < b)) := by
  have h := c2_field_ordering
    ⟨[⟨0, false, false, .tU32, .direct (.vU32 0)⟩,
      ⟨5, false, false, .tBool, .direct (.vBool false)⟩]⟩
    ⟨[⟨0, false, false, .tU32, .direct (.vU32 10)⟩,
      ⟨5, false, false, .tBool, .direct (.vBool true)⟩]⟩
    [0x00, 0x04, 0x0A, 0x00, 0x00, 0x00, 0x05, 0x01, 0xFF]
    [⟨5, false, false, .tBool, .direct (.vBool true)⟩,
     ⟨0, false, false, .tU32, .direct (.vU32 10)⟩]
    [0x00, 0x04, 0x0A, 0x00, 0x00, 0x00, 0x05, 0x01, 0xFF]
    (by decide) (by decide) (by decide) (by decide)
  exact ⟨h.1, by simpa using h.2⟩

/-- `decodeFieldAt` only replaces a field's value, so the ID list of the
target is unchanged. -/
theorem decodeFieldAt_id_map {dst dst2 : GoStruct} {idx : Nat} {tlv : List Nat}
    (h : decodeFieldAt dst idx tlv = .ok dst2) :
    dst2.fields.map (fun f => f.id) = dst.fields.map (fun f => f.id) := by
  unfold decodeFieldAt at h
  cases hg : dst.fields[idx]? with
  | none => rw [hg] at h; exact absurd h (by simp)
  | some f =>
    rw [hg] at h
    dsimp only at h
    cases hD : decodePrimInto f.ty tlv with
    | error e => rw [hD] at h; exact absurd h (by simp)
    | ok pr =>
      obtain ⟨v, r⟩ := pr
      rw [hD] at h
      simp only [Except.ok.injEq] at h
      subst h
      exact set_id_map hg rfl

/-- Inversion of the payload parse at a nonempty buffer: the head pair
carries the first field's ID and its consumed TLV bytes, which replay
identically before any tail. -/
theorem structWirePairs_cons_shape {b : Nat} {rest : List Nat}
    {ps : List (Nat × List Nat)}
    (h : structWirePairs (b :: rest) = some ps) :
    b &&& 0x80 = 0 ∧ ∃ out tlv rest2 ps2,
      ps = (b, tlv) :: ps2 ∧ rest = tlv ++ rest2 ∧
      structWirePairs rest2 = some ps2 ∧
      readTLVBytes rest = .ok (out, rest2) ∧
      ∀ tail, readTLVBytes (tlv ++ tail) = .ok (out, tail) := by
  by_cases hb : b &&& 0x80 ≠ 0
  · rw [show structWirePairs (b :: rest) =
      structWirePairsGo (rest.length + 1) (b :: rest) from rfl] at h
    unfold structWirePairsGo at h
    rw [if_pos hb] at h
    exact absurd h (by simp)
  · rw [not_not] at hb
    refine ⟨hb, ?_⟩
    cases hTLV : readTLVBytes rest with
    | error e =>
      rw [show structWirePairs (b :: rest) =
        structWirePairsGo (rest.length + 1) (b :: rest) from rfl] at h
      unfold structWirePairsGo at h
      rw [if_neg (by simp [hb]), hTLV] at h
      exact absurd h (by simp)
    | ok pr =>
      obtain ⟨out, rest2⟩ := pr
      rw [structWirePairs_step hb hTLV] at h
      cases hps2 : structWirePairs rest2 with
      | none => rw [hps2] at h; exact absurd h (by simp)
      | some ps2 =>
        rw [hps2] at h
        simp only [Option.some.injEq] at h
        obtain ⟨c, hcsplit, _, hreplay⟩ := readTLVBytes_split hTLV
        have hc : rest.take (rest.length - rest2.length) = c := by
          rw [hcsplit]
          have : (c ++ rest2).length - rest2.length = c.length := by simp
          rw [this, List.take_left]
        rw [hc] at h
        exact ⟨out, c, rest2, ps2, h.symm, hcsplit, hps2, rfl, hreplay⟩

/-- The payload bytes of the fields the target binds: the wire pairs
whose IDs `idToIndex` resolves, re-concatenated. -/
def knownPayload (flds : List Field) (ps : List (Nat × List Nat)) : List Nat :=
  pairsBytes (ps.filter (fun p => (idToIndex flds p.1).isSome))

/-- Filtering pairs can only shrink the rebuilt payload. -/
theorem pairsBytes_filter_length (q : Nat × List Nat → Bool) :
    ∀ ps : List (Nat × List Nat),
    (pairsBytes (ps.filter q)).length ≤ (pairsBytes ps).length := by
  intro ps
  induction ps with
  | nil => simp
  | cons p rest ih =>
    by_cases hq : q p
    · rw [List.filter_cons_of_pos hq]
      simp only [pairsBytes, List.length_cons, List.length_append]
      omega
    · rw [List.filter_cons_of_neg (by simpa using hq)]
      calc (pairsBytes (List.filter q rest)).length ≤ (pairsBytes rest).length := ih
        _ ≤ (pairsBytes (p :: rest)).length := by
            simp only [pairsBytes, List.length_cons, List.length_append]
            omega

/-- The decode field loop ignores wire fields whose ID the target does
not bind: running it on a payload with strictly increasing IDs gives the
same result as running it on the known-ID fields alone, from any
starting `prev` at most the original. -/
theorem decodeFields_known :
    ∀ (N : Nat) (buf : List Nat), buf.length ≤ N →
    ∀ (dst : GoStruct) (ps : List (Nat × List Nat)) (prev1 prev2 : Int),
    structWirePairs buf = some ps →
    List.Chain (fun a b => a < b) prev1 (ps.map (fun p => ((p.1 : Nat) : Int))) →
    prev2 ≤ prev1 →
    decodeFields dst buf prev1 = decodeFields dst (knownPayload dst.fields ps) prev2 := by
  intro N
  induction N with
  | zero =>
    intro buf h1 dst ps prev1 prev2 hps _ _
    have : buf = [] := List.eq_nil_of_length_eq_zero (Nat.le_zero.mp h1)
    subst this
    simp only [structWirePairs, structWirePairsGo, Option.some.injEq] at hps
    subst hps
    rfl
  | succ n ih =>
    intro buf h1 dst ps prev1 prev2 hps hchain hle
    match buf with
    | [] =>
      simp only [structWirePairs, structWirePairsGo, Option.some.injEq] at hps
      subst hps
      rfl
    | b :: rest =>
      obtain ⟨hb, out, tlv, rest2, ps2, hshape, hsplit, hps2, hTLV, hreplay⟩ :=
        structWirePairs_cons_shape hps
      subst hshape
      simp only [List.map_cons] at hchain
      have hprev1 : prev1 < (b : Int) := (List.chain_cons.mp hchain).1
      have hchain2 := (List.chain_cons.mp hchain).2
      simp only [List.length_cons] at h1
      have hr2 : rest2.length ≤ n := by
        have : rest.length = tlv.length + rest2.length := by rw [hsplit]; simp
        omega
      rw [decodeFields_step hb hprev1 hTLV]
      cases hIdx : idToIndex dst.fields b with
      | none =>
        unfold knownPayload
        rw [List.filter_cons_of_neg (by simp [hIdx])]
        have hchain2w : List.Chain (fun a c => a < c) (b : Int)
            (ps2.map (fun p => ((p.1 : Nat) : Int))) := hchain2
        exact ih rest2 hr2 dst ps2 (b : Int) prev2 hps2 hchain2w (by omega)
      | some idx =>
        unfold knownPayload
        rw [List.filter_cons_of_pos (by simp [hIdx])]
        show _ = decodeFields dst (b :: (tlv ++ pairsBytes
          (ps2.filter (fun p => (idToIndex dst.fields p.1).isSome)))) prev2
        rw [decodeFields_step hb (by omega) (hreplay _), hIdx]
        dsimp only
        cases hD : decodeFieldAt dst idx out with
        | error e => rfl
        | ok dst2 =>
          dsimp only
          have hidm := decodeFieldAt_id_map hD
          have hIdxEq : ∀ id, idToIndex dst2.fields id = idToIndex dst.fields id :=
            fun id => idToIndexGo_map dst2.fields dst.fields hidm id 0 none
          have := ih rest2 hr2 dst2 ps2 (b : Int) (b : Int) hps2 hchain2 le_rfl
          rw [this]
          unfold knownPayload
          rw [List.filter_congr (fun p _ => by rw [hIdxEq])]

/-- C3 (as stated): a struct TLV carrying fields whose IDs the target
does not bind decodes exactly as the same TLV with the unknown fields
removed — their complete TLVs are consumed and discarded without error
and the known fields still land in their slots — provided the wire IDs
are valid and strictly increasing. -/
theorem c3_unknown_fields (dst : GoStruct) (payload : List Nat)
    (ps : List (Nat × List Nat))
    (hps : structWirePairs payload = some ps)
    (hchain : List.Chain (fun a b => a < b) (-1)
      (ps.map (fun p => ((p.1 : Nat) : Int))))
    (hlen : payload.length ≤ MaxLen) :
    Unmarshal (0x11 :: (EncodeLen payload.length ++ payload)) dst =
      Unmarshal (0x11 :: (EncodeLen (knownPayload dst.fields ps).length ++
        knownPayload dst.fields ps)) dst := by
  have hpb : pairsBytes ps = payload := structWirePairs_bytes payload.length payload le_rfl ps hps
  have hklen : (knownPayload dst.fields ps).length ≤ MaxLen := by
    have := pairsBytes_filter_length (fun p => (idToIndex dst.fields p.1).isSome) ps
    rw [hpb] at this
    exact le_trans this hlen
  have hdf : decodeFields dst payload (-1) =
      decodeFields dst (knownPayload dst.fields ps) (-1) :=
    decodeFields_known payload.length payload le_rfl dst ps (-1) (-1) hps hchain le_rfl
  unfold Unmarshal Decode
  rw [ReadType_ok (by decide), ReadType_ok (by decide)]
  dsimp only
  unfold decodeStructInto
  rw [ReadLen_encode hlen payload, ReadLen_encode hklen (knownPayload dst.fields ps)]
  dsimp only
  by_cases h0 : payload.length = 0
  · have hpe : payload = [] := List.eq_nil_of_length_eq_zero h0
    subst hpe
    simp only [structWirePairs, structWirePairsGo, Option.some.injEq] at hps
    subst hps
    simp [knownPayload, pairsBytes]
  · rw [if_neg h0]
    have hre : ReadFull payload.length payload = .ok (payload, []) := by
      rw [show payload = payload ++ [] by simp]
      rw [ReadFull_exact (by simp) []]
      simp
    rw [hre]
    dsimp only
    by_cases hk0 : (knownPayload dst.fields ps).length = 0
    · have hke : knownPayload dst.fields ps = [] := List.eq_nil_of_length_eq_zero hk0
      rw [if_pos hk0]
      rw [hdf, hke]
      rfl
    · rw [if_neg hk0]
      have hrek : ReadFull (knownPayload dst.fields ps).length (knownPayload dst.fields ps) =
          .ok (knownPayload dst.fields ps, []) := by
        rw [show knownPayload dst.fields ps = knownPayload dst.fields ps ++ [] by simp]
        rw [ReadFull_exact (by simp) []]
        simp
      rw [hrek]
      dsimp only
      rw [hdf]
      rfl

/-- Concrete instantiation on the specification's example: the wire
`11 1C | 00 04 2A 00 00 00 | 02 0E 0A "hello"` decodes into a target
binding only field 0 exactly as the wire with field 2 removed, and the
result holds u32 42. -/
theorem c3_unknown_fields_witness :
    Unmarshal [0x11, 0x1C, 0x00, 0x04, 0x2A, 0x00, 0x00, 0x00,
        0x02, 0x0E, 0x0A, 0x68, 0x65, 0x6C, 0x6C, 0x6F]
      ⟨[⟨0, false, false, .tU32, .direct (.vU32 0)⟩]⟩ =
      Unmarshal [0x11, 0x0C, 0x00, 0x04, 0x2A, 0x00, 0x00, 0x00]
        ⟨[⟨0, false, false, .tU32, .direct (.vU32 0)⟩]⟩ ∧
    Unmarshal [0x11, 0x1C, 0x00, 0x04, 0x2A, 0x00, 0x00, 0x00,
        0x02, 0x0E, 0x0A, 0x68, 0x65, 0x6C, 0x6C, 0x6F]
      ⟨[⟨0, false, false, .tU32, .direct (.vU32 0)⟩]⟩ =
      .ok ⟨[⟨0, false, false, .tU32, .direct (.vU32 42)⟩]⟩ := by
  constructor
  · have h := c3_unknown_fields
      ⟨[⟨0, false, false, .tU32, .direct (.vU32 0)⟩]⟩
      [0x00, 0x04, 0x2A, 0x00, 0x00, 0x00, 0x02, 0x0E, 0x0A, 0x68, 0x65, 0x6C, 0x6C, 0x6F]
      [(0, [0x04, 0x2A, 0x00, 0x00, 0x00]),
       (2, [0x0E, 0x0A, 0x68, 0x65, 0x6C, 0x6C, 0x6F])]
      (by decide)
      (List.Chain.cons (by decide) (List.Chain.cons (by decide) List.Chain.nil))
      (by decide)
    exact h
  · decide

/-- `enumFindIdxGo` finds the unique matching position. -/
theorem enumFindIdxGo_unique (flds : List Field) :
    ∀ (j : Nat) (g : Field) (vid i : Nat),
    flds[j]? = some g → g.id = vid →
    (∀ (k : Nat) (g2 : Field), k ≠ j → flds[k]? = some g2 → g2.id ≠ vid) →
    enumFindIdxGo flds vid i = some (i + j) := by
  induction flds with
  | nil => intro j g vid i hj _ _; simp at hj
  | cons a rest ih =>
    intro j g vid i hj hid huniq
    cases j with
    | zero =>
      simp only [List.getElem?_cons_zero, Option.some.injEq] at hj
      subst hj
      unfold enumFindIdxGo
      rw [if_pos hid]
      rfl
    | succ j2 =>
      have ha : a.id ≠ vid := huniq 0 a (by omega) (by simp)
      unfold enumFindIdxGo
      rw [if_neg ha]
      have := ih j2 g vid (i + 1) (by simpa using hj) hid ?_
      · rw [this]
        congr 1
        omega
      · intro k g2 hk hg2
        exact huniq (k + 1) g2 (by omega) (by simpa using hg2)

/-- A strictly increasing chain stays a chain when the base drops. -/
theorem chain_weaken {l : List Int} {a b : Int}
    (h : List.Chain (fun x y => x < y) a l) (hba : b ≤ a) :
    List.Chain (fun x y => x < y) b l := by
  cases l with
  | nil => exact List.Chain.nil
  | cons c cs =>
    obtain ⟨hac, hcs⟩ := List.chain_cons.mp h
    exact List.chain_cons.mpr ⟨by omega, hcs⟩

/-- Value-kind preservation: zeroing a field keeps pointer-ness. -/
theorem zeroField_isPtr (f : Field) : (zeroField f).val.isPtr = f.val.isPtr := by
  obtain ⟨fid, fopt, fom, fty, fval⟩ := f
  cases fval <;> rfl

/-- A well-typed binding the emission loop skips already holds its zero
value: absent optionals are nil pointers and omitted zeroes are zeroes. -/
theorem zeroField_not_emitted {f : Field}
    (hwt : wellTypedField f = true) (hne : fieldEmitted f = false) :
    zeroField f = f := by
  obtain ⟨fid, fopt, fom, fty, fval⟩ := f
  cases fval with
  | direct v =>
    simp only [fieldEmitted, GoVal.isPtr, Bool.and_false, Bool.false_and, Bool.not_false,
      Bool.true_and, Bool.not_eq_false', Bool.and_eq_true] at hne
    have hz : v = zeroOf fty := by
      have h2 := hne.2
      simpa [isZeroValue] using h2
    simp [zeroField, hz]
  | ptr o =>
    cases o with
    | none => simp [zeroField]
    | some v =>
      simp [fieldEmitted, GoVal.isPtr, GoVal.ptrPresent, isZeroValue] at hne

/-- An empty emission means every binding was skipped. -/
theorem emitFields_nil :
    ∀ fs : List Field, emitFields fs = .ok [] → ∀ f ∈ fs, fieldEmitted f = false := by
  intro fs
  induction fs with
  | nil => intro _ f hf; simp at hf
  | cons f rest ih =>
    intro hmit g hg
    by_cases hskip : (f.optional && f.val.isPtr && !f.val.ptrPresent) = true ∨
        (f.omitempty && isZeroValue f.ty f.val) = true
    · rw [emitFields_cons_skip rest hskip] at hmit
      rcases List.mem_cons.mp hg with rfl | hg2
      · unfold fieldEmitted
        rcases hskip with h | h
        · rw [h]; simp
        · rw [h]; simp
      · exact ih hmit g hg2
    · push_neg at hskip
      obtain ⟨hs1, hs2⟩ := hskip
      have hs1f : (f.optional && f.val.isPtr && !f.val.ptrPresent) = false := by simpa using hs1
      have hs2f : (f.omitempty && isZeroValue f.ty f.val) = false := by simpa using hs2
      simp only [emitFields] at hmit
      rw [hs1f, hs2f] at hmit
      simp only [Bool.false_eq_true, if_false] at hmit
      by_cases hid : f.id &&& 0x80 ≠ 0
      · rw [if_pos hid] at hmit
        exact absurd hmit (by simp)
      · rw [if_neg hid] at hmit
        cases hE : encodeGoVal f.ty f.val with
        | error e => rw [hE] at hmit; exact absurd hmit (by simp)
        | ok tlvf =>
          rw [hE] at hmit
          dsimp only at hmit
          cases hR : emitFields rest with
          | error e => rw [hR] at hmit; exact absurd hmit (by simp)
          | ok out => rw [hR] at hmit; exact absurd hmit (by simp)

/-- In a list with pairwise-distinct IDs, no other position carries the
ID found at `j`. -/
theorem distinct_unique_at {flds : List Field}
    (hd : List.Pairwise (fun a b => a.id ≠ b.id) flds)
    {j : Nat} {g : Field} (hj : flds[j]? = some g) :
    ∀ (k : Nat) (g2 : Field), k ≠ j → flds[k]? = some g2 → g2.id ≠ g.id := by
  intro k g2 hk hkg
  have hjl : j < flds.length := by
    by_contra hge
    rw [List.getElem?_eq_none (by omega)] at hj
    exact absurd hj (by simp)
  have hkl : k < flds.length := by
    by_contra hge
    rw [List.getElem?_eq_none (by omega)] at hkg
    exact absurd hkg (by simp)
  have hje : flds[j] = g := by
    rw [List.getElem?_eq_getElem hjl] at hj
    simpa using hj
  have hke : flds[k] = g2 := by
    rw [List.getElem?_eq_getElem hkl] at hkg
    simpa using hkg
  rcases Nat.lt_or_ge k j with h | h
  · have := List.pairwise_iff_getElem.mp hd k j hkl hjl h
    rw [hje, hke] at this
    exact this
  · have hjk : j < k := by omega
    have := List.pairwise_iff_getElem.mp hd j k hjl hkl hjk
    rw [hje, hke] at this
    exact Ne.symm this

/-- Two distinct positions satisfying a predicate force the filtered
list to hold at least two elements. -/
theorem filter_two_le (p : Field → Bool) :
    ∀ (l : List Field) (j k : Nat), j < k →
    ∀ a b, l[j]? = some a → l[k]? = some b → p a = true → p b = true →
    2 ≤ (l.filter p).length := by
  intro l
  induction l with
  | nil => intro j k _ a b hja _ _ _; simp at hja
  | cons c t ih =>
    intro j k hjk a b hja hkb hpa hpb
    cases j with
    | zero =>
      simp only [List.getElem?_cons_zero, Option.some.injEq] at hja
      subst hja
      obtain ⟨k2, rfl⟩ : ∃ k2, k = k2 + 1 := ⟨k - 1, by omega⟩
      simp only [List.getElem?_cons_succ] at hkb
      have hbmem : b ∈ t := by
        have hkl : k2 < t.length := by
          by_contra hge
          rw [List.getElem?_eq_none (by omega)] at hkb
          exact absurd hkb (by simp)
        rw [List.getElem?_eq_getElem hkl] at hkb
        have : t[k2] = b := by simpa using hkb
        exact this ▸ List.getElem_mem hkl
      have hbf : b ∈ t.filter p := List.mem_filter.mpr ⟨hbmem, hpb⟩
      rw [List.filter_cons_of_pos hpa]
      have h1 : 0 < (t.filter p).length := List.length_pos_of_mem hbf
      simp only [List.length_cons]
      omega
    | succ j2 =>
      obtain ⟨k2, rfl⟩ : ∃ k2, k = k2 + 1 := ⟨k - 1, by omega⟩
      simp only [List.getElem?_cons_succ] at hja hkb
      have hrec := ih j2 k2 (by omega) a b hja hkb hpa hpb
      cases hpc : p c
      · rw [List.filter_cons_of_neg (by simp [hpc])]
        exact hrec
      · rw [List.filter_cons_of_pos hpc]
        simp only [List.length_cons]
        omega

/-- Reading a buffer's own length consumes it exactly. -/
theorem ReadFull_self (l : List Nat) : ReadFull l.length l = .ok (l, []) := by
  have h := ReadFull_exact (rfl : l.length = l.length) ([] : List Nat)
  rwa [List.append_nil] at h

/-- An emitted well-typed binding encodes some primitive that inhabits
its static type, and re-wrapping that primitive in the binding's value
kind restores the original value. -/
theorem emitted_val (f : Field) (hwt : wellTypedField f = true)
    (hem : fieldEmitted f = true) :
    ∃ v, encodeGoVal f.ty f.val = encodePrim v ∧ v.hasTy f.ty = true ∧ v.bytesOk = true ∧
      (if f.val.isPtr then GoVal.ptr (some v) else GoVal.direct v) = f.val := by
  obtain ⟨fid, fopt, fom, fty, fval⟩ := f
  cases fval with
  | direct v =>
    simp only [wellTypedField, Bool.and_eq_true, decide_eq_true_eq] at hwt
    exact ⟨v, rfl, hwt.2.1.2, hwt.2.2, rfl⟩
  | ptr o =>
    cases o with
    | none =>
      simp only [wellTypedField, Bool.and_eq_true, decide_eq_true_eq] at hwt
      simp [fieldEmitted, GoVal.isPtr, GoVal.ptrPresent, hwt.2] at hem
    | some v =>
      simp only [wellTypedField, Bool.and_eq_true, decide_eq_true_eq] at hwt
      exact ⟨v, rfl, hwt.2.1.2, hwt.2.2, rfl⟩

/-- Decoding the bytes the emission loop produced restores the original
struct: each emitted binding lands back in its unique slot, and every
skipped binding already holds its zero value in the target. -/
theorem decode_of_emit :
    ∀ (fs : List Field) (content : List Nat) (dst : GoStruct) (prev : Int) (s : GoStruct),
    emitFields fs = .ok content →
    (∀ f ∈ fs, wellTypedField f = true) →
    (∀ f ∈ fs, f ∈ s.fields) →
    List.Pairwise (fun a b => a.id ≠ b.id) s.fields →
    List.Chain (fun a b => a < b) prev (fs.map (fun f => ((f.id : Nat) : Int))) →
    dst.fields.length = s.fields.length →
    (∀ (k : Nat) (g : Field), s.fields[k]? = some g →
      dst.fields[k]? = some g ∨
        ((∃ f ∈ fs, f.id = g.id) ∧ dst.fields[k]? = some (zeroField g))) →
    decodeFields dst content prev = .ok s := by
  intro fs
  induction fs with
  | nil =>
    intro content dst prev s hemit _ _ _ _ hlen hinv
    simp only [emitFields, Except.ok.injEq] at hemit
    subst hemit
    have hfe : dst.fields = s.fields := by
      apply List.ext_getElem?
      intro k
      cases hk : s.fields[k]? with
      | none =>
        have hge : s.fields.length ≤ k := by
          by_contra hlt
          rw [List.getElem?_eq_getElem (by omega)] at hk
          exact absurd hk (by simp)
        rw [List.getElem?_eq_none (by omega)]
      | some g =>
        rcases hinv k g hk with h | ⟨⟨f, hf, _⟩, _⟩
        · rw [h]
        · simp at hf
    show decodeFieldsGo 0 dst [] prev = .ok s
    unfold decodeFieldsGo
    obtain ⟨dfields⟩ := dst
    obtain ⟨sfields⟩ := s
    simp only at hfe
    subst hfe
    rfl
  | cons f rest ih =>
    intro content dst prev s hemit hwt hmem hdist hchain hlen hinv
    by_cases hskip : (f.optional && f.val.isPtr && !f.val.ptrPresent) = true ∨
        (f.omitempty && isZeroValue f.ty f.val) = true
    · rw [emitFields_cons_skip rest hskip] at hemit
      have hfe : fieldEmitted f = false := by
        unfold fieldEmitted
        rcases hskip with h | h
        · rw [h]; simp
        · rw [h]; simp
      simp only [List.map_cons] at hchain
      obtain ⟨hpf, hchain2⟩ := List.chain_cons.mp hchain
      refine ih content dst prev s hemit
        (fun g hg => hwt g (List.mem_cons_of_mem _ hg))
        (fun g hg => hmem g (List.mem_cons_of_mem _ hg))
        hdist (chain_weaken hchain2 (by omega)) hlen ?_
      intro k g hk
      rcases hinv k g hk with h | ⟨⟨f2, hf2, hf2id⟩, hdk⟩
      · exact Or.inl h
      · rcases List.mem_cons.mp hf2 with rfl | hf2r
        · obtain ⟨j0, hj0⟩ := List.getElem?_of_mem (hmem f2 (List.mem_cons_self _ _))
          have hgf : g = f2 := by
            by_cases hkj : k = j0
            · subst hkj
              rw [hk] at hj0
              simpa using hj0
            · exact absurd hf2id.symm (distinct_unique_at hdist hj0 k g hkj hk)
          subst hgf
          rw [zeroField_not_emitted (hwt g (List.mem_cons_self _ _)) hfe] at hdk
          exact Or.inl hdk
        · exact Or.inr ⟨⟨f2, hf2r, hf2id⟩, hdk⟩
    · push_neg at hskip
      obtain ⟨hs1, hs2⟩ := hskip
      have hs1f : (f.optional && f.val.isPtr && !f.val.ptrPresent) = false := by simpa using hs1
      have hs2f : (f.omitempty && isZeroValue f.ty f.val) = false := by simpa using hs2
      have hfe : fieldEmitted f = true := by
        unfold fieldEmitted
        rw [hs1f, hs2f]
        rfl
      have hwf := hwt f (List.mem_cons_self _ _)
      have hid80 : f.id < 0x80 := by
        unfold wellTypedField at hwf
        simp only [Bool.and_eq_true, decide_eq_true_eq] at hwf
        exact hwf.1
      have hb : f.id &&& 0x80 = 0 := land128_of_lt hid80
      simp only [emitFields] at hemit
      rw [hs1f, hs2f] at hemit
      simp only [Bool.false_eq_true, if_false] at hemit
      rw [if_neg (by simp [hb])] at hemit
      cases hE : encodeGoVal f.ty f.val with
      | error e => rw [hE] at hemit; exact absurd hemit (by simp)
      | ok tlvf =>
        rw [hE] at hemit
        dsimp only at hemit
        cases hR : emitFields rest with
        | error e => rw [hR] at hemit; exact absurd hemit (by simp)
        | ok out =>
          rw [hR] at hemit
          simp only [Except.ok.injEq] at hemit
          subst hemit
          obtain ⟨v0, hv0enc, hv0ty, hv0ok, hv0new⟩ := emitted_val f hwf hfe
          have henc : encodePrim v0 = .ok tlvf := hv0enc ▸ hE
          have hTLV : readTLVBytes (tlvf ++ out) = .ok (tlvf, out) := readTLV_of_prim henc out
          simp only [List.map_cons] at hchain
          obtain ⟨hpf, hchain2⟩ := List.chain_cons.mp hchain
          rw [decodeFields_step hb hpf hTLV]
          have hids : dst.fields.map (fun x => x.id) = s.fields.map (fun x => x.id) := by
            apply List.ext_getElem?
            intro k
            rw [List.getElem?_map, List.getElem?_map]
            cases hk : s.fields[k]? with
            | none =>
              have hge : s.fields.length ≤ k := by
                by_contra hlt
                rw [List.getElem?_eq_getElem (by omega)] at hk
                exact absurd hk (by simp)
              rw [List.getElem?_eq_none (by omega)]
            | some g =>
              rcases hinv k g hk with h | ⟨_, h⟩
              · rw [h]
              · rw [h]
                rfl
          obtain ⟨j0, hj0⟩ := List.getElem?_of_mem (hmem f (List.mem_cons_self _ _))
          have hj0lt : j0 < s.fields.length := by
            by_contra hge
            rw [List.getElem?_eq_none (by omega)] at hj0
            exact absurd hj0 (by simp)
          have hIdx : idToIndex dst.fields f.id = some j0 := by
            unfold idToIndex
            rw [idToIndexGo_map dst.fields s.fields hids]
            have h := idToIndexGo_unique s.fields j0 f f.id 0 none hj0 rfl
              (fun k g2 hk hg2 => distinct_unique_at hdist hj0 k g2 hk hg2)
            simpa using h
          have hslot : ∃ f2, dst.fields[j0]? = some f2 ∧
              f2.ty = f.ty ∧ f2.val.isPtr = f.val.isPtr ∧
              ∀ w, { f2 with val := w } = { f with val := w } := by
            rcases hinv j0 f hj0 with h | ⟨_, h⟩
            · exact ⟨f, h, rfl, rfl, fun w => rfl⟩
            · refine ⟨zeroField f, h, rfl, zeroField_isPtr f, fun w => ?_⟩
              obtain ⟨fid, fopt, fom, fty, fval⟩ := f
              cases fval <;> rfl
          obtain ⟨f2, hf2slot, hf2ty, hf2ptr, hf2upd⟩ := hslot
          have hdp : decodePrimInto f2.ty tlvf = .ok (v0, []) := by
            rw [hf2ty]
            have h := decodePrim_encodePrim hv0ty hv0ok henc []
            rwa [List.append_nil] at h
          have hDA : decodeFieldAt dst j0 tlvf = .ok ⟨dst.fields.set j0 f⟩ := by
            unfold decodeFieldAt
            rw [hf2slot]
            dsimp only
            rw [hdp]
            dsimp only
            have hval : (if f2.val.isPtr then GoVal.ptr (some v0) else GoVal.direct v0) =
                f.val := by
              rw [hf2ptr]
              exact hv0new
            rw [hval, hf2upd f.val]
          rw [hIdx]
          dsimp only
          rw [hDA]
          dsimp only
          refine ih out ⟨dst.fields.set j0 f⟩ (f.id : Int) s hR
            (fun g hg => hwt g (List.mem_cons_of_mem _ hg))
            (fun g hg => hmem g (List.mem_cons_of_mem _ hg))
            hdist hchain2 (by simpa using hlen) ?_
          intro k g hk
          by_cases hkj : k = j0
          · subst hkj
            left
            have hlt : k < dst.fields.length := by omega
            rw [hk] at hj0
            have : g = f := by simpa using hj0
            subst this
            simp only [List.getElem?_set_self hlt]
          · rcases hinv k g hk with h | ⟨⟨f2m, hf2m, hf2mid⟩, hdk⟩
            · left
              simp only [List.getElem?_set_ne (by omega : j0 ≠ k)]
              exact h
            · rcases List.mem_cons.mp hf2m with rfl | hf2r
              · exact absurd hf2mid.symm (distinct_unique_at hdist hj0 k g hkj hk)
              · refine Or.inr ⟨⟨f2m, hf2r, hf2mid⟩, ?_⟩
                simp only [List.getElem?_set_ne (by omega : j0 ≠ k)]
                exact hdk

/-- C1 counterexample: both bindings of this struct are well-typed in the
claim's universe, yet — because they share field ID 0 — Marshal silently
succeeds and the produced wire fails to decode (field-order error), so
decode(encode(v)) ≠ v.  The claim needs pairwise-distinct field IDs. -/
theorem c1_roundtrip_cex :
    (∀ f ∈ ([⟨0, false, false, .tU32, .direct (.vU32 1)⟩,
             ⟨0, false, false, .tU32, .direct (.vU32 2)⟩] : List Field),
      wellTypedField f = true) ∧
    Marshal ⟨[⟨0, false, false, .tU32, .direct (.vU32 1)⟩,
              ⟨0, false, false, .tU32, .direct (.vU32 2)⟩]⟩ =
      .ok [0x11, 0x18, 0x00, 0x04, 0x01, 0x00, 0x00, 0x00,
           0x00, 0x04, 0x02, 0x00, 0x00, 0x00] ∧
    Unmarshal [0x11, 0x18, 0x00, 0x04, 0x01, 0x00, 0x00, 0x00,
               0x00, 0x04, 0x02, 0x00, 0x00, 0x00]
      (zeroStruct ⟨[⟨0, false, false, .tU32, .direct (.vU32 1)⟩,
                    ⟨0, false, false, .tU32, .direct (.vU32 2)⟩]⟩) =
      .error .errFieldOrder := by
  exact ⟨by decide, by decide, by decide⟩

/-- C1 (amended): on a struct whose relish bindings are well-typed and
carry pairwise-distinct field IDs, whenever Marshal succeeds (it can fail
only on invalid-UTF-8 strings or out-of-range lengths), Unmarshal of the
produced bytes into the struct type's zero value restores the original
value — for both the struct wire shape and the enum wire shape. -/
theorem c1_roundtrip (s : GoStruct) (data : List Nat)
    (hwt : ∀ f ∈ s.fields, wellTypedField f = true)
    (hdist : List.Pairwise (fun a b => a.id ≠ b.id) s.fields)
    (hok : Marshal s = .ok data) :
    Unmarshal data (zeroStruct s) = .ok s := by
  unfold Marshal encodeStruct at hok
  dsimp only at hok
  have hstruct : ∀ (content lenBytes : List Nat),
      emitFields (sortFields s.fields) = .ok content →
      WriteLen content.length = .ok lenBytes →
      0x11 :: (lenBytes ++ content) = data →
      Unmarshal data (zeroStruct s) = .ok s := by
    intro content lenBytes hemit hWL hdata
    obtain ⟨hmax, hlb⟩ := WriteLen_ok hWL
    subst hlb
    subst hdata
    unfold Unmarshal Decode
    rw [ReadType_ok (by decide)]
    dsimp only
    rw [if_pos rfl]
    unfold decodeStructInto
    rw [ReadLen_encode hmax content]
    dsimp only
    by_cases h0 : content.length = 0
    · rw [if_pos h0]
      have hce : content = [] := List.eq_nil_of_length_eq_zero h0
      subst hce
      have hall : ∀ g ∈ s.fields, fieldEmitted g = false := fun g hg =>
        emitFields_nil _ hemit g
          ((List.perm_insertionSort _ s.fields).mem_iff.mpr hg)
      have hzs : zeroStruct s = s := by
        unfold zeroStruct
        have hmapz : s.fields.map zeroField = s.fields := by
          calc s.fields.map zeroField
              = s.fields.map id :=
                List.map_congr_left
                  (fun g hg => zeroField_not_emitted (hwt g hg) (hall g hg))
            _ = s.fields := List.map_id _
        rw [hmapz]
      rw [hzs]
    · rw [if_neg h0]
      rw [ReadFull_self content]
      dsimp only
      haveI : IsTotal Field (fun a b => a.id ≤ b.id) := ⟨fun a b => Nat.le_total a.id b.id⟩
      haveI : IsTrans Field (fun a b => a.id ≤ b.id) :=
        ⟨fun _ _ _ hab hbc => le_trans hab hbc⟩
      have hsorted : List.Pairwise (fun a b : Field => a.id ≤ b.id) (sortFields s.fields) :=
        List.sorted_insertionSort _ _
      have hdist2 : List.Pairwise (fun a b : Field => a.id ≠ b.id) (sortFields s.fields) :=
        ((List.perm_insertionSort _ s.fields).pairwise_iff (fun h => Ne.symm h)).mpr hdist
      have hlt : List.Pairwise (fun a b : Field => a.id < b.id) (sortFields s.fields) :=
        (hsorted.and hdist2).imp (fun h => by omega)
      have hchain : List.Chain (fun a b => a < b) (-1 : Int)
          ((sortFields s.fields).map (fun f => ((f.id : Nat) : Int))) := by
        rw [List.chain_iff_pairwise, List.pairwise_cons]
        refine ⟨?_, List.pairwise_map.mpr (hlt.imp (fun h => by exact_mod_cast h))⟩
        intro b hb
        simp only [List.mem_map] at hb
        obtain ⟨g, _, rfl⟩ := hb
        omega
      have hinv0 : ∀ (k : Nat) (g : Field), s.fields[k]? = some g →
          (zeroStruct s).fields[k]? = some g ∨
            ((∃ f2 ∈ sortFields s.fields, f2.id = g.id) ∧
              (zeroStruct s).fields[k]? = some (zeroField g)) := by
        intro k g hk
        refine Or.inr ⟨⟨g, (List.perm_insertionSort _ s.fields).mem_iff.mpr
          (List.getElem?_mem hk), rfl⟩, ?_⟩
        show (s.fields.map zeroField)[k]? = some (zeroField g)
        rw [List.getElem?_map, hk]
        rfl
      have hmain := decode_of_emit (sortFields s.fields) content (zeroStruct s) (-1) s hemit
        (fun g hg => hwt g ((List.perm_insertionSort _ s.fields).mem_iff.mp hg))
        (fun g hg => (List.perm_insertionSort _ s.fields).mem_iff.mp hg)
        hdist hchain (by simp [zeroStruct]) hinv0
      rw [hmain]
  split at hok
  · rename_i hcond
    obtain ⟨hpos, hallopt, hone⟩ := hcond
    cases hfind : s.fields.find? (fun f => f.val.isPtr && f.val.ptrPresent) with
    | none =>
      exfalso
      have h1 : 0 < (s.fields.filter
          (fun f => f.optional && f.val.isPtr && f.val.ptrPresent)).length := by
        rw [hone]
        norm_num
      obtain ⟨g, hg⟩ := List.exists_mem_of_length_pos h1
      obtain ⟨hgmem, hgp⟩ := List.mem_filter.mp hg
      have hnone := List.find?_eq_none.mp hfind g hgmem
      simp only [Bool.and_eq_true] at hgp hnone
      exact hnone ⟨hgp.1.2, hgp.2⟩
    | some f =>
      rw [hfind] at hok
      dsimp only at hok
      have hfmem := List.mem_of_find?_eq_some hfind
      have hfp := List.find?_some hfind
      simp only [Bool.and_eq_true] at hfp
      have hwf := hwt f hfmem
      have hid80 : f.id < 0x80 := by
        unfold wellTypedField at hwf
        simp only [Bool.and_eq_true, decide_eq_true_eq] at hwf
        exact hwf.1
      rw [if_neg (by simp [land128_of_lt hid80])] at hok
      obtain ⟨v0, hfval⟩ : ∃ v0, f.val = GoVal.ptr (some v0) := by
        cases hv : f.val with
        | direct v =>
          rw [hv] at hfp
          simp [GoVal.isPtr] at hfp
        | ptr o =>
          cases o with
          | none =>
            rw [hv] at hfp
            simp [GoVal.ptrPresent] at hfp
          | some v => exact ⟨v, rfl⟩
      have hv0 : v0.hasTy f.ty = true ∧ v0.bytesOk = true := by
        unfold wellTypedField at hwf
        rw [hfval] at hwf
        simp only [Bool.and_eq_true, decide_eq_true_eq] at hwf
        exact ⟨hwf.2.1.2, hwf.2.2⟩
      cases hE : encodeGoVal f.ty f.val with
      | error e => rw [hE] at hok; exact absurd hok (by simp)
      | ok inner =>
        rw [hE] at hok
        dsimp only at hok
        unfold WriteEnumTLV at hok
        rw [if_neg (by simp [land128_of_lt hid80])] at hok
        cases hWL : WriteLen (f.id :: inner).length with
        | error e => rw [hWL] at hok; exact absurd hok (by simp)
        | ok lenBytes =>
          rw [hWL] at hok
          simp only [Except.ok.injEq] at hok
          obtain ⟨hmax, hlb⟩ := WriteLen_ok hWL
          subst hlb
          subst hok
          have henc : encodePrim v0 = .ok inner := by
            rw [hfval] at hE
            exact hE
          unfold Unmarshal Decode
          rw [ReadType_ok (by decide)]
          dsimp only
          rw [if_neg (by decide), if_pos rfl]
          unfold decodeEnumInto
          rw [ReadLen_encode hmax (f.id :: inner)]
          dsimp only
          rw [if_neg (by simp)]
          rw [ReadFull_self (f.id :: inner)]
          dsimp only
          obtain ⟨j0, hj0⟩ := List.getElem?_of_mem hfmem
          have hj0lt : j0 < s.fields.length := by
            by_contra hge
            rw [List.getElem?_eq_none (by omega)] at hj0
            exact absurd hj0 (by simp)
          have hFI : enumFindIdx (zeroStruct s).fields f.id = some j0 := by
            show enumFindIdxGo (s.fields.map zeroField) f.id 0 = some j0
            have h := enumFindIdxGo_unique (s.fields.map zeroField) j0 (zeroField f) f.id 0
              (by rw [List.getElem?_map, hj0]; rfl) rfl ?_
            · simpa using h
            · intro k g2 hk hg2
              rw [List.getElem?_map] at hg2
              cases hgk : s.fields[k]? with
              | none =>
                rw [hgk] at hg2
                exact absurd hg2 (by simp)
              | some g =>
                rw [hgk] at hg2
                simp only [Option.map_some', Option.some.injEq] at hg2
                subst hg2
                exact distinct_unique_at hdist hj0 k g hk hgk
          rw [hFI]
          dsimp only
          have hslot : (zeroStruct s).fields[j0]? = some (zeroField f) := by
            show (s.fields.map zeroField)[j0]? = _
            rw [List.getElem?_map, hj0]
            rfl
          rw [hslot]
          dsimp only
          have hzfv : (zeroField f).val = GoVal.ptr none := by
            unfold zeroField
            dsimp only
            rw [hfval]
          rw [if_neg (by simp [hzfv, GoVal.isPtr])]
          have hdp : decodePrimInto (zeroField f).ty inner = .ok (v0, []) := by
            show decodePrimInto f.ty inner = _
            have h := decodePrim_encodePrim hv0.1 hv0.2 henc []
            rwa [List.append_nil] at h
          rw [hdp]
          dsimp only
          rw [if_neg (by simp)]
          have hset : (s.fields.map zeroField).set j0
              { zeroField f with val := GoVal.ptr (some v0) } = s.fields := by
            have hupd : { zeroField f with val := GoVal.ptr (some v0) } = f := by
              rw [← hfval]
              obtain ⟨fid, fopt, fom, fty, fval⟩ := f
              cases fval <;> rfl
            rw [hupd]
            apply List.ext_getElem?
            intro k
            by_cases hkj : k = j0
            · subst hkj
              rw [List.getElem?_set_self (by simpa using hj0lt), hj0]
            · rw [List.getElem?_set_ne (by omega : j0 ≠ k), List.getElem?_map]
              cases hgk : s.fields[k]? with
              | none => rfl
              | some g =>
                have hmemk : g ∈ s.fields := List.getElem?_mem hgk
                have hgwt := hwt g hmemk
                have hgopt : g.optional = true :=
                  (List.filter_length_eq_length.mp hallopt) g hmemk
                obtain ⟨o, hgo⟩ : ∃ o, g.val = GoVal.ptr o := by
                  cases hv : g.val with
                  | ptr o => exact ⟨o, rfl⟩
                  | direct v =>
                    unfold wellTypedField at hgwt
                    rw [hv, hgopt] at hgwt
                    simp at hgwt
                cases o with
                | some w =>
                  exfalso
                  have hfopt : f.optional = true :=
                    (List.filter_length_eq_length.mp hallopt) f hfmem
                  have hfp2 : (f.optional && f.val.isPtr && f.val.ptrPresent) = true := by
                    rw [hfval, hfopt]
                    rfl
                  have hgp2 : (g.optional && g.val.isPtr && g.val.ptrPresent) = true := by
                    rw [hgo, hgopt]
                    rfl
                  have h2 : 2 ≤ (s.fields.filter
                      (fun x => x.optional && x.val.isPtr && x.val.ptrPresent)).length := by
                    rcases Nat.lt_or_ge k j0 with hlt | hge
                    · exact filter_two_le _ s.fields k j0 hlt g f hgk hj0 hgp2 hfp2
                    · exact filter_two_le _ s.fields j0 k (by omega) f g hj0 hgk hfp2 hgp2
                  rw [hone] at h2
                  omega
                | none =>
                  have hzg : zeroField g = g := by
                    obtain ⟨gid, gopt, gom, gty, gval⟩ := g
                    simp only at hgo
                    subst hgo
                    rfl
                  simp only [Option.map_some']
                  rw [hzg]
          dsimp only
          show Except.ok (GoStruct.mk ((zeroStruct s).fields.set j0
            { zeroField f with val := GoVal.ptr (some v0) })) = Except.ok s
          have hzfields : (zeroStruct s).fields = s.fields.map zeroField := rfl
          rw [hzfields, hset]
  · rename_i hcond
    cases hemit : emitFields (sortFields s.fields) with
    | error e => rw [hemit] at hok; exact absurd hok (by simp)
    | ok content =>
      rw [hemit] at hok
      dsimp only at hok
      unfold WriteStructTLV at hok
      cases hWL : WriteLen content.length with
      | error e => rw [hWL] at hok; exact absurd hok (by simp)
      | ok lenBytes =>
        rw [hWL] at hok
        simp only [Except.ok.injEq] at hok
        exact hstruct content lenBytes hemit hWL hok

/-- Concrete instantiation of the amended round-trip statement: a
two-field struct (u32 42 at ID 0, string "hi" at ID 2) marshals and
unmarshals back to itself. -/
theorem c1_roundtrip_witness :
    Unmarshal [0x11, 0x16, 0x00, 0x04, 0x2A, 0x00, 0x00, 0x00,
               0x02, 0x0E, 0x04, 0x68, 0x69]
      (zeroStruct ⟨[⟨0, false, false, .tU32, .direct (.vU32 42)⟩,
                    ⟨2, false, false, .tStr, .direct (.vStr [0x68, 0x69])⟩]⟩) =
      .ok ⟨[⟨0, false, false, .tU32, .direct (.vU32 42)⟩,
            ⟨2, false, false, .tStr, .direct (.vStr [0x68, 0x69])⟩]⟩ :=
  c1_roundtrip
    ⟨[⟨0, false, false, .tU32, .direct (.vU32 42)⟩,
      ⟨2, false, false, .tStr, .direct (.vStr [0x68, 0x69])⟩]⟩
    [0x11, 0x16, 0x00, 0x04, 0x2A, 0x00, 0x00, 0x00, 0x02, 0x0E, 0x04, 0x68, 0x69]
    (by decide) (by decide) (by decide)

end Relish
